import Mathlib

/-!
Verification development for the Foundry template-materialization core
(`internal/utils/utils.go`, `internal/project/create.go`, `cmd/new.go`).

Modelling conventions:
* Go strings are modelled as `List Char` (`GoStr`).  The code only ever
  manipulates paths and template text; byte/rune distinctions of UTF-8 are
  immaterial for the properties below, so one list element stands for one
  byte/rune.
* The tool runs on a Unix-style filesystem: `os.PathSeparator` is `'/'`,
  hence `filepath.ToSlash` is the identity map on separators.
* `filepath.Match` (the stdlib glob matcher used by `MatchIgnore`) is
  translated chunk-for-chunk from Go's `path/filepath/match.go`; a pattern
  error is collapsed to a non-match because the call site discards the
  error (`if matched, _ := filepath.Match(...)`).
* Go `map` iteration order is unspecified; maps are modelled as
  association lists iterated in insertion order, with Go's overwriting
  insert (`m[k] = v`).
-/

/-- Go `string`, modelled as a list of characters. -/
abbrev GoStr : Type := List Char

/-- Shorthand for writing `GoStr` literals. -/
def gs (s : String) : GoStr := s.toList

/-- `strings.HasPrefix pre ⋯`: `isPre pre s` is true iff `s` starts with `pre`
(generic over the element type so it also serves for path-segment lists). -/
def isPre {α : Type} [DecidableEq α] : List α → List α → Bool
  | [], _ => true
  | _ :: _, [] => false
  | a :: as2, b :: bs => a = b && isPre as2 bs

/-- `strings.HasSuffix suf s`. -/
def hasSuf (suf s : GoStr) : Bool := isPre suf.reverse s.reverse

/-- `strings.TrimSuffix s suf`: drops one trailing occurrence of `suf`. -/
def trimSuffix (s suf : GoStr) : GoStr :=
  if hasSuf suf s then s.take (s.length - suf.length) else s

/-- `os.PathSeparator` on the Unix platforms the tool targets. -/
def pathSeparator : Char := '/'

/-- `filepath.ToSlash`: replace every `os.PathSeparator` by `'/'`
(the identity on Unix, transcribed literally). -/
def toSlash (s : GoStr) : GoStr :=
  s.map (fun c => if c = pathSeparator then '/' else c)

/-! ### `filepath.Match` (Go stdlib glob), transcribed from `match.go` -/

/-- `getEsc` from `match.go`: read one (possibly escaped) character of a
character-class range.  `none` models `ErrBadPattern`. -/
def getEsc : GoStr → Option (Char × GoStr)
  | [] => none
  | c :: rest =>
    if c = '-' ∨ c = ']' then none
    else if c = '\\' then
      match rest with
      | [] => none
      | d :: rest2 => if rest2 = [] then none else some (d, rest2)
    else if rest = [] then none else some (c, rest)

theorem getEsc_shrink {l rest : GoStr} {c : Char}
    (h : getEsc l = some (c, rest)) : rest.length < l.length := by
  cases l with
  | nil => simp [getEsc] at h
  | cons a t =>
    unfold getEsc at h
    by_cases h1 : a = '-' ∨ a = ']'
    · simp [h1] at h
    · by_cases h2 : a = '\\'
      · simp only [if_neg h1, if_pos h2] at h
        cases t with
        | nil => simp at h
        | cons d t2 =>
          by_cases h3 : t2 = [] <;> simp [h3] at h
          obtain ⟨-, h4⟩ := h
          subst h4
          simp
          omega
      · by_cases h3 : t = [] <;> simp [h1, h2, h3] at h
        obtain ⟨-, h4⟩ := h
        subst h4
        simp

/-- The character-class range loop inside `matchChunk` (`match.go`):
parse `lo-hi` ranges until the closing `']'`, accumulating whether any
range contains `r`.  Returns the accumulated flag and the rest of the
chunk; `none` models `ErrBadPattern`. -/
def matchRanges (r : Char) (ch : GoStr) (m : Bool) (nrange : Nat) :
    Option (Bool × GoStr) :=
  if ch.head? = some ']' ∧ 0 < nrange then some (m, ch.tail)
  else
    match hg : getEsc ch with
    | none => none
    | some (lo, ch1) =>
      if ch1.head? = some '-' then
        match hg2 : getEsc ch1.tail with
        | none => none
        | some (hi, ch3) =>
          matchRanges r ch3 (m || (decide (lo ≤ r) && decide (r ≤ hi))) (nrange + 1)
      else
        matchRanges r ch1 (m || (decide (lo ≤ r) && decide (r ≤ lo))) (nrange + 1)
termination_by ch.length
decreasing_by
  · have h1 := getEsc_shrink hg
    have h2 := getEsc_shrink hg2
    have h3 : ch1.tail.length ≤ ch1.length := by
      cases ch1 <;> simp
    omega
  · exact getEsc_shrink hg

theorem matchRanges_le :
    ∀ (n : Nat) (r : Char) (ch : GoStr) (m : Bool) (nrange : Nat)
      (m2 : Bool) (rest : GoStr),
      ch.length ≤ n → matchRanges r ch m nrange = some (m2, rest) →
      rest.length ≤ ch.length := by
  intro n
  induction n with
  | zero =>
    intro r ch m nrange m2 rest hlen h
    have hch : ch = [] := by
      cases ch
      · rfl
      · simp at hlen
    subst hch
    rw [matchRanges.eq_def] at h
    simp [getEsc] at h
  | succ n ih =>
    intro r ch m nrange m2 rest hlen h
    rw [matchRanges.eq_def] at h
    split at h
    · rename_i hcond
      cases h
      cases ch <;> simp
    · split at h
      · cases h
      · rename_i lo ch1 hg
        have hsh := getEsc_shrink hg
        split at h
        · split at h
          · cases h
          · rename_i hi ch3 hg2
            have hsh2 := getEsc_shrink hg2
            have htl : ch1.tail.length ≤ ch1.length := by cases ch1 <;> simp
            have := ih r ch3 _ _ m2 rest (by omega) h
            omega
        · have := ih r ch1 _ _ m2 rest (by omega) h
          omega

/-- Inside `matchChunk`'s `'['` case (`match.go`): consume an optional
leading `'^'` (negation marker) of the character class. -/
def caretStrip (ch : GoStr) : GoStr :=
  if ch.head? = some '^' then ch.tail else ch

theorem caretStrip_le (ch : GoStr) : (caretStrip ch).length ≤ ch.length := by
  unfold caretStrip
  split
  · cases ch <;> simp
  · exact le_rfl

/-- The chunk-matching loop of `matchChunk` (`match.go`).  `failed0` is the
`failed` flag: once set, the rest of the chunk is still parsed (to detect
bad patterns) but `s` is no longer consumed.  Result: `none` models
`ErrBadPattern`, `some none` a failed match, `some (some t)` a match with
remaining name `t`. -/
def matchChunk (chunk s : GoStr) (failed0 : Bool) : Option (Option GoStr) :=
  match chunk with
  | [] => if failed0 then some none else some (some s)
  | c :: ch =>
    let failed := failed0 || s.isEmpty
    if c = '[' then
      let r := if failed then Char.ofNat 0 else s.headD (Char.ofNat 0)
      let s1 := if failed then s else s.tail
      let negated : Bool := decide (ch.head? = some '^')
      match hm : matchRanges r (caretStrip ch) false 0 with
      | none => none
      | some (m, chRest) =>
        matchChunk chRest s1 (if m = negated then true else failed)
    else if c = '?' then
      matchChunk ch (if failed then s else s.tail)
        (failed || decide (s.headD (Char.ofNat 0) = pathSeparator))
    else if c = '\\' then
      match ch with
      | [] => none
      | d :: ch2 =>
        matchChunk ch2 (if failed then s else s.tail)
          (failed || !(decide (s.headD (Char.ofNat 0) = d)))
    else
      matchChunk ch (if failed then s else s.tail)
        (failed || !(decide (s.headD (Char.ofNat 0) = c)))
termination_by chunk.length
decreasing_by
  · calc chRest.length
        ≤ (caretStrip _).length := matchRanges_le _ _ _ false 0 _ chRest le_rfl hm
      _ ≤ _ := caretStrip_le _
      _ < _ := by simp only [List.length_cons]; omega
  · (try simp only [List.length_cons]); omega
  · (try simp only [List.length_cons]); omega
  · (try simp only [List.length_cons]); omega

/-- The leading-star stripping at the top of `scanChunk` (`match.go`). -/
def stripStars : GoStr → Bool × GoStr
  | [] => (false, [])
  | c :: rest => if c = '*' then (true, (stripStars rest).2) else (false, c :: rest)

/-- Length of the chunk recognised by `scanChunk`'s scan loop (`match.go`):
stop at a `'*'` that is not inside a `[...]` range; `'\\'` escapes the
following character. -/
def chunkLen : GoStr → Bool → Nat
  | [], _ => 0
  | c :: rest, inrange =>
    if c = '\\' then
      match rest with
      | [] => 1
      | _ :: rest2 => 2 + chunkLen rest2 inrange
    else if c = '[' then 1 + chunkLen rest true
    else if c = ']' then 1 + chunkLen rest false
    else if c = '*' then (if inrange then 1 + chunkLen rest inrange else 0)
    else 1 + chunkLen rest inrange

/-- `scanChunk` (`match.go`): split the pattern into leading stars, the next
chunk, and the remaining pattern. -/
def scanChunk (pattern2 : GoStr) : Bool × GoStr × GoStr :=
  let sp := stripStars pattern2
  let n := chunkLen sp.2 false
  (sp.1, sp.2.take n, sp.2.drop n)

/-- The star-retry loop inside `Match` (`match.go`): try matching the chunk
at successive positions of the name, not crossing a separator.  `restEmpty`
records whether the remaining pattern is empty (in which case only a match
consuming the whole name is accepted). -/
def starSearch (chunk : GoStr) (restEmpty : Bool) : GoStr → Option (Option GoStr)
  | [] => some none
  | c :: s =>
    if c = pathSeparator then some none
    else
      match matchChunk chunk s false with
      | none => none
      | some (some t) =>
        if restEmpty && !t.isEmpty then starSearch chunk restEmpty s
        else some (some t)
      | some none => starSearch chunk restEmpty s

theorem stripStars_length (p : GoStr) : (stripStars p).2.length ≤ p.length := by
  induction p with
  | nil => simp [stripStars]
  | cons c rest ih =>
    unfold stripStars
    split
    · show (stripStars rest).2.length ≤ (c :: rest).length
      simp only [List.length_cons]
      omega
    · exact le_rfl

theorem stripStars_star_lt (p : GoStr) (h : (stripStars p).1 = true) :
    (stripStars p).2.length < p.length := by
  cases p with
  | nil => simp [stripStars] at h
  | cons c rest =>
    by_cases hc : c = '*'
    · have e : stripStars (c :: rest) = (true, (stripStars rest).2) := by
        simp only [stripStars]
        rw [if_pos hc]
      rw [e]
      have := stripStars_length rest
      show (stripStars rest).2.length < (c :: rest).length
      simp only [List.length_cons]
      omega
    · have e : stripStars (c :: rest) = (false, c :: rest) := by
        simp only [stripStars]
        rw [if_neg hc]
      rw [e] at h
      simp at h

theorem stripStars_no_star (p : GoStr) (h : (stripStars p).1 = false) :
    (stripStars p).2 = p := by
  cases p with
  | nil => simp [stripStars]
  | cons c rest =>
    by_cases hc : c = '*'
    · have e : stripStars (c :: rest) = (true, (stripStars rest).2) := by
        simp only [stripStars]
        rw [if_pos hc]
      rw [e] at h
      simp at h
    · have e : stripStars (c :: rest) = (false, c :: rest) := by
        simp only [stripStars]
        rw [if_neg hc]
      rw [e]

theorem stripStars_head_ne_star (p : GoStr) (c : Char) (t : GoStr)
    (h : (stripStars p).1 = false) (h2 : p = c :: t) : c ≠ '*' := by
  subst h2
  unfold stripStars at h
  intro hc
  rw [if_pos hc] at h
  simp at h

theorem chunkLen_pos (c : Char) (t : GoStr) (h : c ≠ '*') :
    0 < chunkLen (c :: t) false := by
  unfold chunkLen
  repeat' split
  all_goals omega

theorem scanChunk_rest_lt (p : GoStr) (hne : p ≠ []) :
    (scanChunk p).2.2.length < p.length := by
  have e : (scanChunk p).2.2 = (stripStars p).2.drop (chunkLen (stripStars p).2 false) := rfl
  rw [e, List.length_drop]
  cases hstar : (stripStars p).1 with
  | true =>
    have h1 := stripStars_star_lt p hstar
    omega
  | false =>
    have h1 := stripStars_no_star p hstar
    cases p with
    | nil => exact absurd rfl hne
    | cons c t =>
      have hc := stripStars_head_ne_star (c :: t) c t hstar rfl
      have h2 := chunkLen_pos c t hc
      rw [h1]
      simp only [List.length_cons]
      omega

/-- `filepath.Match` (`match.go`), with a pattern error collapsed to a
non-match as at the call site in `MatchIgnore`. -/
def matchLoop (pattern2 name : GoStr) : Bool :=
  match pattern2 with
  | [] => name.isEmpty
  | p0 :: prest =>
    let sc := scanChunk (p0 :: prest)
    if sc.1 = true ∧ sc.2.1 = [] then !(name.contains '/')
    else
      match matchChunk sc.2.1 name false with
      | none => false
      | some (some t) =>
        if t.isEmpty || !sc.2.2.isEmpty then matchLoop sc.2.2 t
        else
          if sc.1 then
            match starSearch sc.2.1 sc.2.2.isEmpty name with
            | some (some t2) => matchLoop sc.2.2 t2
            | _ => false
          else false
      | some none =>
        if sc.1 then
          match starSearch sc.2.1 sc.2.2.isEmpty name with
          | some (some t2) => matchLoop sc.2.2 t2
          | _ => false
        else false
termination_by pattern2.length
decreasing_by
  all_goals refine scanChunk_rest_lt _ (by simp)

/-! ### `internal/utils/utils.go` -/

/-- `MatchIgnore` (`utils.go`): a relative path matches an ignore set if some
pattern glob-matches the normalized path, or the normalized path extended
with a trailing separator has the pattern with a trailing separator as a
prefix (directory-prefix match). -/
def MatchIgnore (relPath : GoStr) (patterns2 : List GoStr) : Bool :=
  let normalizedPath := toSlash relPath
  patterns2.any (fun pat =>
    let normalizedPattern := toSlash (trimSuffix pat (gs "/"))
    matchLoop normalizedPattern normalizedPath ||
    isPre (normalizedPattern ++ [pathSeparator]) (normalizedPath ++ [pathSeparator]))

/-- `unicode.IsSpace` restricted to the ASCII range (the white space that
`strings.TrimSpace` strips from ignore-file lines in practice). -/
def isSpaceGo (c : Char) : Bool :=
  c = ' ' || c = '\t' || c = '\n' || c = '\x0b' || c = '\x0c' || c = '\r'

/-- `strings.TrimSpace`. -/
def trimSpace (s : GoStr) : GoStr :=
  ((s.dropWhile isSpaceGo).reverse.dropWhile isSpaceGo).reverse

/-- Split a string at every occurrence of a character (used for
`bufio.Scanner` lines at `'\n'` and for path segments at `'/'`). -/
def splitOnChar (sep : Char) : GoStr → List GoStr
  | [] => [[]]
  | c :: rest =>
    if c = sep then [] :: splitOnChar sep rest
    else
      match splitOnChar sep rest with
      | [] => [[c]]
      | seg :: segs => (c :: seg) :: segs

/-- `LoadIgnorePatterns` (`utils.go`), applied to the content of the ignore
file (the file-system read is resolved by the caller in this model): scan
lines, trim white space, drop blank lines and `#` comments. -/
def LoadIgnorePatterns (content : GoStr) : List GoStr :=
  ((splitOnChar '\n' content).map trimSpace).filter
    (fun line => !(line.isEmpty || isPre (gs "#") line))

/-- `strings.ReplaceAll` scanning loop for a non-empty pattern: replace
non-overlapping occurrences left to right. -/
def replaceAllAux (p0 : Char) (ptail rep : GoStr) : GoStr → GoStr
  | [] => []
  | c :: rest =>
    if isPre (p0 :: ptail) (c :: rest) then
      rep ++ replaceAllAux p0 ptail rep (rest.drop ptail.length)
    else
      c :: replaceAllAux p0 ptail rep rest
termination_by s => s.length
decreasing_by
  · have : (rest.drop ptail.length).length ≤ rest.length := by
      rw [List.length_drop]
      omega
    simp only [List.length_cons]
    omega
  · simp only [List.length_cons]
    omega

/-- `strings.ReplaceAll s pat rep`.  For an empty pattern Go inserts the
replacement at every rune boundary, including both ends. -/
def replaceAll (s pat rep : GoStr) : GoStr :=
  match pat with
  | [] => rep ++ (s.map (fun c => c :: rep)).flatten
  | p0 :: ptail => replaceAllAux p0 ptail rep s

/-- Go `map[string]string` assignment `m[k] = v` on an association-list
model: overwrite an existing binding, else append. -/
def goMapInsert (m : List (GoStr × GoStr)) (k v : GoStr) : List (GoStr × GoStr) :=
  match m with
  | [] => [(k, v)]
  | (k1, v1) :: rest => if k1 = k then (k, v) :: rest else (k1, v1) :: goMapInsert rest k v

/-- Go map lookup `m[k]` on the association-list model. -/
def goMapGet (m : List (GoStr × GoStr)) (k : GoStr) : Option GoStr :=
  match m with
  | [] => none
  | (k1, v1) :: rest => if k1 = k then some v1 else goMapGet rest k

/-- Build a Go map from successive `m[k] = v` assignments. -/
def goMapOfList (l : List (GoStr × GoStr)) : List (GoStr × GoStr) :=
  l.foldl (fun m kv => goMapInsert m kv.1 kv.2) []

/-- `strings.ToLower`, ASCII range (the only range exercised here). -/
def toLowerGo (s : GoStr) : GoStr := s.map Char.toLower

/-- `strings.ToUpper`, ASCII range. -/
def toUpperGo (s : GoStr) : GoStr := s.map Char.toUpper

/-- The `replacements` map literal of `ReplacePlaceholders` (`utils.go`)
before the `extraVars` loop runs. -/
def builtinReplacements (projectName author : GoStr) : List (GoStr × GoStr) :=
  [(gs "\x7b\x7bPROJECT_NAME\x7d\x7d", projectName),
   (gs "\x7b\x7bAUTHOR\x7d\x7d", author),
   (gs "\x7b\x7bPROJECT_NAME_LOWER\x7d\x7d", toLowerGo projectName),
   (gs "\x7b\x7bPROJECT_NAME_UPPER\x7d\x7d", toUpperGo projectName)]

/-- The `replacements` map of `ReplacePlaceholders` after the
`for k, v := range extraVars { replacements["{{"+k+"}}"] = v }` loop:
a caller-supplied key that collides with a built-in token overwrites the
built-in value (Go map assignment).  `extraVars` is the iteration order of
the Go map, which is unspecified; the model fixes the given list order. -/
def buildReplacements (projectName author : GoStr)
    (extraVars : List (GoStr × GoStr)) : List (GoStr × GoStr) :=
  extraVars.foldl
    (fun m kv => goMapInsert m (gs "\x7b\x7b" ++ kv.1 ++ gs "\x7d\x7d") kv.2)
    (builtinReplacements projectName author)

/-- The substitution loop of `ReplacePlaceholders`: apply
`strings.ReplaceAll` once per map entry. -/
def applyReps (content : GoStr) (reps : List (GoStr × GoStr)) : GoStr :=
  reps.foldl (fun acc kv => replaceAll acc kv.1 kv.2) content

/-- `ReplacePlaceholders` (`utils.go`). -/
def ReplacePlaceholders (content projectName author : GoStr)
    (extraVars : List (GoStr × GoStr)) : GoStr :=
  applyReps content (buildReplacements projectName author extraVars)

/-- `Min` (`utils.go`); named `goMin` because `Min` is taken by Mathlib. -/
def goMin (a b : Nat) : Nat := if a < b then a else b

/-- `IsBinary` (`utils.go`): scan the first `Min (length, maxCheckBytes)`
bytes for a zero byte. -/
def IsBinary (data : GoStr) (maxCheckBytes : Nat) : Bool :=
  let checkSize := goMin data.length maxCheckBytes
  (data.take checkSize).any (fun b => b = Char.ofNat 0)

/-! ### Path model (`path/filepath` on clean absolute Unix paths)

The walk only ever calls `filepath.Rel`, `filepath.Join` and
`filepath.Base` on the resolved source root, the target root, and paths
the walk itself built by joining child names onto the root, so the model
restricts these functions to clean paths (no `.`/`..` segments, no
trailing or doubled separators), on which they are purely segmental. -/

/-- Path segments of a string: split at `'/'`. -/
def splitSlash (s : GoStr) : List GoStr := splitOnChar '/' s

/-- Join segments with `'/'` (inverse of `splitSlash` on well-formed
segment lists). -/
def joinSegs : List GoStr → GoStr
  | [] => []
  | [s] => s
  | s :: rest => s ++ '/' :: joinSegs rest

/-- Length of the common leading run of two segment lists. -/
def commonLen : List GoStr → List GoStr → Nat
  | a :: as2, b :: bs => if a = b then 1 + commonLen as2 bs else 0
  | _, _ => 0

/-- `filepath.Rel base targ` for clean paths that are both absolute (or
share a common root): walk up with `..` for the part of `base` past the
common prefix, then down into `targ`.  `filepath.Rel` cannot fail on such
inputs, so no error case is modelled. -/
def goRel (base targ : GoStr) : GoStr :=
  let sb := splitSlash base
  let st := splitSlash targ
  let k := commonLen sb st
  let rel := List.replicate (sb.length - k) (gs "..") ++ st.drop k
  if rel = [] then gs "." else joinSegs rel

/-- The path `filepath.Walk` hands to the callback for the entry `segs`
below the walk root: the root itself for `[]`, else the root joined with
the segment chain (`filepath.Join(path, name)` at each level). -/
def pathOf (root : GoStr) (segs : List GoStr) : GoStr :=
  match segs with
  | [] => root
  | _ => root ++ '/' :: joinSegs segs

/-! ### `internal/project/create.go` -/

/-- `isTargetInsideSource` (`create.go`): the destination counts as inside
the source iff `filepath.Rel(source, target)` does not start with `".."`
(the `Rel` error cannot occur for the resolved absolute paths modelled
here). -/
def isTargetInsideSource (absSourceDir absTargetDir : GoStr) : Bool :=
  !(isPre (gs "..") (goRel absSourceDir absTargetDir))

/-- `isTargetOrChild` (`create.go`): the visited path equals the target
(relative to the source root) or lies under it (string-prefix test with a
trailing separator appended to both sides). -/
def isTargetOrChild (srcPath absSourceDir targetRoot : GoStr) : Bool :=
  let relSrcFromSource := goRel absSourceDir srcPath
  let relTarget := goRel absSourceDir targetRoot
  relSrcFromSource = relTarget ||
    isPre (relTarget ++ [pathSeparator]) (relSrcFromSource ++ [pathSeparator])

/-- `shouldSkipDir` (`create.go`): the fixed denylist of directory names. -/
def shouldSkipDir (name : GoStr) : Bool :=
  name = gs "node_modules" || name = gs "vendor" || name = gs ".venv" ||
  name = gs "dist" || name = gs "build" || name = gs ".git"

/-- `shouldSkipEntry` (`create.go`), result `(skip, skipDir)`:
1. denylisted directory names are pruned;
2. with the self-containment guard active, the target subtree is pruned;
3. the walk root (`relPath == "."`) is skipped but descended;
4. ignore-pattern matches are skipped (pruned for directories).
The `filepath.Rel` error branch (`return false, false`) cannot trigger for
the walk-generated paths modelled here. -/
def shouldSkipEntry (isDir : Bool) (name srcPath sourceRoot targetRoot absSourceDir : GoStr)
    (targetInsideSource : Bool) (ignores : List GoStr) : Bool × Bool :=
  if isDir && shouldSkipDir name then (true, true)
  else if targetInsideSource && isTargetOrChild srcPath absSourceDir targetRoot then
    if isDir then (true, true) else (true, false)
  else
    let relPath := goRel sourceRoot srcPath
    if relPath = gs "." then (true, false)
    else if MatchIgnore (toSlash relPath) ignores then
      if isDir then (true, true) else (true, false)
    else (false, false)

/-- `joinDest` (`create.go`): destination path of an entry, the target root
joined with the entry's source-relative path. -/
def joinDest (targetRoot sourceRoot srcPath : GoStr) : GoStr :=
  targetRoot ++ '/' :: goRel sourceRoot srcPath

/-- `copyFileWithReplacements` (`create.go`), content level: the byte
content written to the destination.  A file whose first 8000 bytes contain
a zero byte is copied unmodified; otherwise placeholders are substituted.
(The 8000 is the literal bound at the call site.) -/
def copyFileWithReplacements (content projectName author : GoStr)
    (extraVars : List (GoStr × GoStr)) : GoStr :=
  if IsBinary content 8000 then content
  else ReplacePlaceholders content projectName author extraVars

/-! ### The template tree and the two static walks

`filepath.Walk` visits the root, then recursively each directory's
entries in sorted order.  `FTree` is the directory tree of the template at
walk time; a node's `children` list is the sorted directory listing.  The
static walks below model runs in which both modes walk the same
unchanging tree: destinations outside the template root.  There
`PreviewFromTemplate` performs no writes at all, and `CreateFromTemplate`
writes — including the destination directory `ensureTargetDir` creates
before the walk — only outside the walked subtree, so the tree each walk
sees is the source snapshot.  For a destination nested inside the
template root the walk-time trees differ between the modes (create's
walk runs on a file system that already contains the destination it
created, and can pick up its own copies), so that case is analysed with
the fueled mutable-file-system walk `walkAux` further down. -/

inductive FTree where
  | file (name content : GoStr)
  | dir (name : GoStr) (children : List FTree)

def FTree.name : FTree → GoStr
  | .file n _ => n
  | .dir n _ => n

def FTree.isDir : FTree → Bool
  | .file _ _ => false
  | .dir _ _ => true

/-- Parameters shared by every step of one walk. -/
structure WalkCtx where
  sourceRoot : GoStr
  targetRoot : GoStr
  absSourceDir : GoStr
  targetInsideSource : Bool
  ignores : List GoStr

mutual

/-- The walk body of `copyTree` (`create.go`) over a static tree: the list
of destination paths produced (directories created and files written), in
visit order.  A skipped entry with `skipDir` prunes the subtree; a skipped
entry without `skipDir` (the walk root) is still descended. -/
def createVisit (ctx : WalkCtx) (t : FTree) (srcPath : GoStr) : List GoStr :=
  let sk := shouldSkipEntry t.isDir t.name srcPath ctx.sourceRoot ctx.targetRoot
    ctx.absSourceDir ctx.targetInsideSource ctx.ignores
  if sk.1 then
    if sk.2 then []
    else
      match t with
      | .file _ _ => []
      | .dir _ children => createForest ctx children srcPath
  else
    joinDest ctx.targetRoot ctx.sourceRoot srcPath ::
      (match t with
       | .file _ _ => []
       | .dir _ children => createForest ctx children srcPath)

def createForest (ctx : WalkCtx) (ts : List FTree) (parentPath : GoStr) : List GoStr :=
  match ts with
  | [] => []
  | c :: rest => createVisit ctx c (parentPath ++ '/' :: c.name) ++ createForest ctx rest parentPath

end

mutual

/-- The walk body of `PreviewFromTemplate` (`create.go`) over a static
tree: the `Files` list of the preview summary.  Note the check order
differs from `createVisit`: the ignore-pattern test runs before the
`relPath == "."` test. -/
def previewVisit (ctx : WalkCtx) (t : FTree) (srcPath : GoStr) : List GoStr :=
  if t.isDir && shouldSkipDir t.name then []
  else if ctx.targetInsideSource && isTargetOrChild srcPath ctx.absSourceDir ctx.targetRoot then []
  else
    let relPath := goRel ctx.sourceRoot srcPath
    if MatchIgnore (toSlash relPath) ctx.ignores then []
    else if relPath = gs "." then
      match t with
      | .file _ _ => []
      | .dir _ children => previewForest ctx children srcPath
    else
      (ctx.targetRoot ++ '/' :: relPath) ::
        (match t with
         | .file _ _ => []
         | .dir _ children => previewForest ctx children srcPath)

def previewForest (ctx : WalkCtx) (ts : List FTree) (parentPath : GoStr) : List GoStr :=
  match ts with
  | [] => []
  | c :: rest => previewVisit ctx c (parentPath ++ '/' :: c.name) ++ previewForest ctx rest parentPath

end

/-- The ignore patterns `CreateFromTemplate`/`PreviewFromTemplate` load:
the parsed content of a `.foundryignore` file at the template root, or the
empty set when the file is absent. -/
def rootIgnores : FTree → List GoStr
  | .file _ _ => []
  | .dir _ children =>
    match children.find? (fun c => !c.isDir && c.name = gs ".foundryignore") with
    | some (.file _ content) => LoadIgnorePatterns content
    | _ => []

/-- `CreateFromTemplate` (`create.go`) at the path level: the destination
paths its walk produces, for a destination outside the template root —
there the tree at walk time is the source snapshot, unaffected by the
directory `ensureTargetDir` pre-creates and by the walk's own writes,
all of which land outside the walked subtree.  The template path is
modelled as already absolute and symlink-resolved (`tmpl.Path =
absSourceDir`), matching the resolved roots the spec quantifies over.
For a destination nested inside the template root, where the real walk
can observe the created destination and its own copies, the faithful
model is `createWalkFS` below. -/
def CreateFromTemplateFiles (tmplPath targetDir : GoStr) (tree : FTree) : List GoStr :=
  let targetInsideSource := isTargetInsideSource tmplPath targetDir
  let ignores := rootIgnores tree
  createVisit ⟨tmplPath, targetDir, tmplPath, targetInsideSource, ignores⟩ tree tmplPath

/-- `PreviewFromTemplate` (`create.go`) at the path level: the `Files`
list of the returned summary.  Preview writes nothing and runs no
`ensureTargetDir`, so the static source snapshot is always the tree it
walks; it coincides with the tree `CreateFromTemplateFiles` walks only
when the destination lies outside the template root — for a nested
destination create's walk-time tree additionally contains the created
destination directory (see `createWalkFS`). -/
def PreviewFromTemplateFiles (tmplPath targetDir : GoStr) (tree : FTree) : List GoStr :=
  let targetInsideSource := isTargetInsideSource tmplPath targetDir
  let ignores := rootIgnores tree
  previewVisit ⟨tmplPath, targetDir, tmplPath, targetInsideSource, ignores⟩ tree tmplPath

mutual

/-- The source paths `copyTree`'s walk hands to its callback over a static
tree (every visited entry, including ones that are then skipped):
used to state that a failed precondition prevents any visit. -/
def visitedVisit (ctx : WalkCtx) (t : FTree) (srcPath : GoStr) : List GoStr :=
  let sk := shouldSkipEntry t.isDir t.name srcPath ctx.sourceRoot ctx.targetRoot
    ctx.absSourceDir ctx.targetInsideSource ctx.ignores
  srcPath ::
    (if sk.1 && sk.2 then []
     else
       match t with
       | .file _ _ => []
       | .dir _ children => visitedForest ctx children srcPath)

def visitedForest (ctx : WalkCtx) (ts : List FTree) (parentPath : GoStr) : List GoStr :=
  match ts with
  | [] => []
  | c :: rest => visitedVisit ctx c (parentPath ++ '/' :: c.name) ++ visitedForest ctx rest parentPath

end

/-- Outcome of one `foundry new` materialization run (`cmd/new.go`):
either the destination-exists error, or the walk's outputs. -/
structure RunOutcome where
  errorMsg : Option GoStr
  createdPaths : List GoStr
  visitedSources : List GoStr

/-- The materialization slice of `newCmd.Run` (`cmd/new.go`, lines 575-612):
the destination directory is stat-checked once, before anything else; only
if it does not exist does `CreateFromTemplate` run its walk.
`destExists` is the result of that `os.Stat` check. -/
def runNewMaterialize (destExists : Bool) (tmplPath targetDir : GoStr)
    (tree : FTree) : RunOutcome :=
  if destExists then
    ⟨some (gs "Directory already exists"), [], []⟩
  else
    let targetInsideSource := isTargetInsideSource tmplPath targetDir
    let ignores := rootIgnores tree
    let ctx : WalkCtx := ⟨tmplPath, targetDir, tmplPath, targetInsideSource, ignores⟩
    ⟨none, createVisit ctx tree tmplPath, visitedVisit ctx tree tmplPath⟩

/-! ### The materializing walk over a mutable file system

`filepath.Walk` reads each directory's listing when it reaches the
directory, so files created by the walk's own copies can be picked up by
listings read later — the situation the self-containment guard exists
for.  `walkAux` models this: the file system is a list of entries (paths
as segment chains below the source root, since in the interesting case
the target — and hence every write — lies below the source root); a
directory's listing is computed from the current file system when the
directory is popped, before the callback's write is applied, exactly as
`filepath.Walk` reads the names before invoking the callback and
descending.  The fuel only bounds the number of visits; the termination
theorem shows a fuel computable from the initial file system suffices. -/

structure FsEntry where
  segs : List GoStr
  isDir : Bool
deriving DecidableEq, Repr

/-- Current directory listing of `p`: the entries exactly one segment
below it.  (`filepath.Walk` additionally sorts the listing; the order is
irrelevant to the properties proved here.) -/
def childrenOf (fs : List FsEntry) (p : List GoStr) : List FsEntry :=
  fs.filter (fun e => decide (e.segs.length = p.length + 1 ∧ e.segs.take p.length = p))

/-- One materializing walk over the mutable file system, transcribing the
walker of `copyTree` (`create.go`).  Arguments: fuel, file system, stack
of pending visits (pre-order), source paths copied so far, source paths
visited so far.  Returns `(copied, visited, completed)`; `completed` is
false iff the fuel ran out. -/
def walkAux (sourceRoot : GoStr) (tsegs : List GoStr) (ignores : List GoStr) :
    Nat → List FsEntry → List FsEntry → List (List GoStr) → List (List GoStr) →
    List (List GoStr) × List (List GoStr) × Bool
  | 0, _, _, copied, visited => (copied, visited, false)
  | _ + 1, _, [], copied, visited => (copied, visited, true)
  | fuel + 1, fs, e :: stack, copied, visited =>
    let names := if e.isDir then childrenOf fs e.segs else []
    let srcPath := pathOf sourceRoot e.segs
    let entryName := (splitSlash sourceRoot ++ e.segs).getLastD []
    let targetRoot := pathOf sourceRoot tsegs
    let tis := isTargetInsideSource sourceRoot targetRoot
    let sk := shouldSkipEntry e.isDir entryName srcPath sourceRoot targetRoot
      sourceRoot tis ignores
    if sk.1 then
      if sk.2 then
        walkAux sourceRoot tsegs ignores fuel fs stack copied (visited ++ [e.segs])
      else
        walkAux sourceRoot tsegs ignores fuel fs (names ++ stack) copied (visited ++ [e.segs])
    else
      walkAux sourceRoot tsegs ignores fuel
        (fs ++ [⟨tsegs ++ e.segs, e.isDir⟩]) (names ++ stack)
        (copied ++ [e.segs]) (visited ++ [e.segs])

/-- `CreateFromTemplate`'s walk over the mutable file system: `fs0` is the
file system at walk start (the source tree including the target directory,
which `ensureTargetDir` has already created), the walk starts at the
source root. -/
def createWalkFS (sourceRoot : GoStr) (tsegs : List GoStr) (ignores : List GoStr)
    (fs0 : List FsEntry) (fuel : Nat) :
    List (List GoStr) × List (List GoStr) × Bool :=
  walkAux sourceRoot tsegs ignores fuel fs0 [⟨[], true⟩] [] []

/-! ### Basic lemmas about the string primitives -/

theorem isPre_append {α : Type} [DecidableEq α] (a m : List α) :
    isPre a (a ++ m) = true := by
  induction a with
  | nil => rfl
  | cons x xs ih => simp [isPre, ih]

theorem isPre_exists {α : Type} [DecidableEq α] :
    ∀ (a b : List α), isPre a b = true → ∃ m, b = a ++ m := by
  intro a
  induction a with
  | nil => exact fun b _ => ⟨b, rfl⟩
  | cons x xs ih =>
    intro b hb
    cases b with
    | nil => simp [isPre] at hb
    | cons y ys =>
      simp only [isPre, Bool.and_eq_true, decide_eq_true_eq] at hb
      obtain ⟨hxy, hpre⟩ := hb
      obtain ⟨m, hm⟩ := ih ys hpre
      exact ⟨m, by rw [hxy, hm]; rfl⟩

theorem isPre_trans {α : Type} [DecidableEq α] {a b c : List α}
    (h1 : isPre a b = true) (h2 : isPre b c = true) : isPre a c = true := by
  obtain ⟨m1, hm1⟩ := isPre_exists a b h1
  obtain ⟨m2, hm2⟩ := isPre_exists b c h2
  subst hm1
  subst hm2
  rw [List.append_assoc]
  exact isPre_append a (m1 ++ m2)

theorem isPre_length {α : Type} [DecidableEq α] {a b : List α}
    (h : isPre a b = true) : a.length ≤ b.length := by
  obtain ⟨m, hm⟩ := isPre_exists a b h
  subst hm
  simp

theorem isPre_append_cons {α : Type} [DecidableEq α] (a : List α) (c : α) (m : List α) :
    isPre (a ++ [c]) (a ++ c :: m) = true := by
  have e : a ++ c :: m = (a ++ [c]) ++ m := by simp
  rw [e]
  exact isPre_append _ _

/-! ### Claim theorems: ignore matching and binary detection -/

/-- C6.  For every ignore-pattern set, every relative path that lies under
a directory named by some pattern of the set (the normalized path is the
normalized, slash-trimmed pattern followed by a separator and a remainder)
is matched by `MatchIgnore`, through its directory-prefix branch. -/
theorem matchIgnore_matches_descendants
    (patterns2 : List GoStr) (p relPath rest : GoStr)
    (hmem : p ∈ patterns2)
    (hdesc : toSlash relPath = toSlash (trimSuffix p (gs "/")) ++ '/' :: rest) :
    MatchIgnore relPath patterns2 = true := by
  unfold MatchIgnore
  rw [List.any_eq_true]
  refine ⟨p, hmem, ?_⟩
  rw [Bool.or_eq_true]
  right
  rw [hdesc, List.append_assoc]
  exact isPre_append_cons _ _ _

/-- Witness for `matchIgnore_matches_descendants`: the pattern `dist/`
matches the descendant `dist/bundle.js`. -/
theorem matchIgnore_matches_descendants_witness :
    MatchIgnore (gs "dist/bundle.js") [gs "dist/"] = true :=
  matchIgnore_matches_descendants [gs "dist/"] (gs "dist/")
    (gs "dist/bundle.js") (gs "bundle.js") (by decide) (by decide)

theorem isBinary_eq_take (data : GoStr) (n : Nat) :
    IsBinary data n = (data.take n).any (fun b => decide (b = Char.ofNat 0)) := by
  show (data.take (goMin data.length n)).any (fun b => decide (b = Char.ofNat 0)) = _
  unfold goMin
  split
  · rename_i h
    rw [List.take_length, List.take_of_length_le (le_of_lt h)]
  · rfl

/-- C5.  Binary classification looks at the first 8000 bytes only: it is
the same on `data` and on `data.take 8000`; a zero byte among the first
8000 makes the file binary and `copyFileWithReplacements` then writes the
content unmodified; and content with no zero byte among the first 8000
bytes is classified text even if a later byte is zero. -/
theorem isBinary_first_8000 (data projectName author : GoStr)
    (extraVars : List (GoStr × GoStr)) :
    (IsBinary data 8000 = IsBinary (data.take 8000) 8000) ∧
    (Char.ofNat 0 ∈ data.take 8000 →
      IsBinary data 8000 = true ∧
      copyFileWithReplacements data projectName author extraVars = data) ∧
    (Char.ofNat 0 ∉ data.take 8000 → IsBinary data 8000 = false) := by
  refine ⟨?_, ?_, ?_⟩
  · rw [isBinary_eq_take, isBinary_eq_take, List.take_take, Nat.min_self]
  · intro hmem
    have hbin : IsBinary data 8000 = true := by
      rw [isBinary_eq_take, List.any_eq_true]
      exact ⟨Char.ofNat 0, hmem, by rw [decide_eq_true_eq]⟩
    refine ⟨hbin, ?_⟩
    unfold copyFileWithReplacements
    rw [hbin]
    rfl
  · intro hmem
    rw [isBinary_eq_take]
    rw [List.any_eq_false]
    intro x hx hzero
    rw [decide_eq_true_eq] at hzero
    exact hmem (hzero ▸ hx)

/-- Witness for `isBinary_first_8000`: a single zero byte is binary and
copied unmodified; a zero byte only at position 8000 leaves the
classification text. -/
theorem isBinary_first_8000_witness :
    (IsBinary [Char.ofNat 0] 8000 = true ∧
      copyFileWithReplacements [Char.ofNat 0] (gs "p") (gs "a") [] = [Char.ofNat 0]) ∧
    IsBinary (List.replicate 8000 'x' ++ [Char.ofNat 0]) 8000 = false := by
  constructor
  · refine (isBinary_first_8000 [Char.ofNat 0] (gs "p") (gs "a") []).2.1 ?_
    rw [List.take_of_length_le (by simp)]
    simp
  · refine (isBinary_first_8000 (List.replicate 8000 'x' ++ [Char.ofNat 0])
      (gs "p") (gs "a") []).2.2 ?_
    have : (List.replicate 8000 'x' ++ [Char.ofNat 0]).take 8000 = List.replicate 8000 'x' := by
      have h := List.take_left (List.replicate 8000 'x') [Char.ofNat 0]
      rwa [List.length_replicate] at h
    rw [this]
    intro hmem
    have h2 := List.eq_of_mem_replicate hmem
    exact absurd h2 (by decide)

/-! ### Claim theorems: classifier precedence, concrete scenarios -/

/-- C3.  In `shouldSkipEntry`, a directory whose base name is on the fixed
denylist is always classified skip-and-do-not-descend, whatever the ignore
set; and with the guard flag set, an entry equal to or under the target is
always skipped (pruned when a directory), whatever the ignore set.  Both
checks precede and override the ignore-pattern check: the result does not
depend on `ignores` in either case. -/
theorem shouldSkipEntry_denylist_guard_first
    (isDir : Bool) (name srcPath sourceRoot targetRoot absSourceDir : GoStr)
    (tis : Bool) (ignores : List GoStr) :
    (isDir = true → shouldSkipDir name = true →
      shouldSkipEntry isDir name srcPath sourceRoot targetRoot absSourceDir tis ignores
        = (true, true)) ∧
    (tis = true → isTargetOrChild srcPath absSourceDir targetRoot = true →
      shouldSkipEntry isDir name srcPath sourceRoot targetRoot absSourceDir tis ignores
        = (true, isDir)) := by
  constructor
  · intro hdir hdeny
    unfold shouldSkipEntry
    rw [if_pos (by rw [hdir, hdeny]; rfl)]
  · intro htis htoc
    unfold shouldSkipEntry
    by_cases hdeny : (isDir && shouldSkipDir name) = true
    · rw [if_pos hdeny]
      have : isDir = true := by
        rcases Bool.and_eq_true _ _ |>.mp hdeny with ⟨h1, -⟩
        exact h1
      rw [this]
    · rw [if_neg hdeny, if_pos (by rw [htis, htoc]; rfl)]
      cases isDir <;> rfl

/-- Witness for `shouldSkipEntry_denylist_guard_first`: a `node_modules`
directory is pruned despite an ignore set naming something else, and a
file at the target path is skipped despite an empty ignore set. -/
theorem shouldSkipEntry_denylist_guard_first_witness :
    shouldSkipEntry true (gs "node_modules") (gs "/s/node_modules") (gs "/s") (gs "/t")
      (gs "/s") false [gs "x"] = (true, true) ∧
    shouldSkipEntry false (gs "t") (gs "/s/t") (gs "/s") (gs "/s/t")
      (gs "/s") true [] = (true, false) := by
  constructor
  · exact (shouldSkipEntry_denylist_guard_first true (gs "node_modules") (gs "/s/node_modules")
      (gs "/s") (gs "/t") (gs "/s") false [gs "x"]).1 rfl (by decide)
  · exact (shouldSkipEntry_denylist_guard_first false (gs "t") (gs "/s/t")
      (gs "/s") (gs "/s/t") (gs "/s") true []).2 rfl (by decide)

/-- The C7 template: a root `.foundryignore` containing the single line
`/dist/`, and a file `dist/bundle.js`. -/
def distIgnoreTree : FTree :=
  .dir (gs "tpl")
    [ .file (gs ".foundryignore") (gs "/dist/\n"),
      .dir (gs "dist") [ .file (gs "bundle.js") (gs "js") ] ]

/-- C7.  Materializing `distIgnoreTree` produces only the `.foundryignore`
copy: no `dist` directory is created under the destination root and
`dist/bundle.js` is excluded.  (The `dist` directory is pruned by the
denylist before the ignore pattern is even consulted.) -/
theorem create_excludes_dist_scenario :
    CreateFromTemplateFiles (gs "/templates/tpl") (gs "/home/user/demo") distIgnoreTree
      = [gs "/home/user/demo/.foundryignore"] ∧
    (gs "/home/user/demo/dist") ∉
      CreateFromTemplateFiles (gs "/templates/tpl") (gs "/home/user/demo") distIgnoreTree ∧
    (gs "/home/user/demo/dist/bundle.js") ∉
      CreateFromTemplateFiles (gs "/templates/tpl") (gs "/home/user/demo") distIgnoreTree := by
  have h : CreateFromTemplateFiles (gs "/templates/tpl") (gs "/home/user/demo") distIgnoreTree
      = [gs "/home/user/demo/.foundryignore"] := by
    simp [CreateFromTemplateFiles, createVisit, createForest, distIgnoreTree, rootIgnores,
          LoadIgnorePatterns, splitOnChar, trimSpace, isSpaceGo, shouldSkipEntry, shouldSkipDir,
          isTargetInsideSource, isTargetOrChild, goRel, splitSlash, joinSegs, commonLen, pathOf,
          joinDest, MatchIgnore, matchLoop, matchChunk, matchRanges, scanChunk, stripStars,
          chunkLen, caretStrip, getEsc, gs, isPre, toSlash, trimSuffix, hasSuf, pathSeparator,
          FTree.isDir, FTree.name]
  refine ⟨h, ?_, ?_⟩ <;> rw [h] <;> decide

/-- C8.  When the destination directory already exists, `newCmd.Run` fails
with the destination-already-exists error before `CreateFromTemplate` is
reached: the walk never starts, no entry is visited, nothing is created. -/
theorem destination_exists_blocks_walk (tmplPath targetDir : GoStr) (tree : FTree) :
    (runNewMaterialize true tmplPath targetDir tree).errorMsg
      = some (gs "Directory already exists") ∧
    (runNewMaterialize true tmplPath targetDir tree).createdPaths = [] ∧
    (runNewMaterialize true tmplPath targetDir tree).visitedSources = [] :=
  ⟨rfl, rfl, rfl⟩

/-- C9.  Expanding `"{{PROJECT_NAME}} by {{AUTHOR}}"` with project name
`demo`, author `Ada` and no extra variables yields `"demo by Ada"`, and
expanding that output again with the same inputs returns it unchanged. -/
theorem placeholder_round_trip :
    ReplacePlaceholders (gs "\x7b\x7bPROJECT_NAME\x7d\x7d by \x7b\x7bAUTHOR\x7d\x7d")
      (gs "demo") (gs "Ada") [] = gs "demo by Ada" ∧
    ReplacePlaceholders (gs "demo by Ada") (gs "demo") (gs "Ada") [] = gs "demo by Ada" := by
  constructor <;>
    simp [ReplacePlaceholders, applyReps, buildReplacements, builtinReplacements,
          replaceAll, replaceAllAux, toLowerGo, toUpperGo, gs, isPre]

/-! ### Substring machinery for the placeholder engine -/

/-- `strings.Contains s pat` (argument order: pattern first). -/
def hasSub (pat : GoStr) : GoStr → Bool
  | [] => pat.isEmpty
  | c :: rest => isPre pat (c :: rest) || hasSub pat rest

theorem hasSub_of_isPre_hasSub {a k s : GoStr}
    (h1 : isPre a k = true) (h2 : hasSub k s = true) : hasSub a s = true := by
  induction s with
  | nil =>
    simp only [hasSub, List.isEmpty_iff] at h2
    subst h2
    cases a with
    | nil => rfl
    | cons x xs => simp [isPre] at h1
  | cons c rest ih =>
    simp only [hasSub, Bool.or_eq_true] at h2 ⊢
    cases h2 with
    | inl h => exact Or.inl (isPre_trans h1 h)
    | inr h => exact Or.inr (ih h)

theorem replaceAllAux_not_contained (p0 : Char) (ptail rep : GoStr) :
    ∀ s : GoStr, hasSub (p0 :: ptail) s = false →
      replaceAllAux p0 ptail rep s = s := by
  intro s
  induction s with
  | nil => intro _; rw [replaceAllAux]
  | cons c rest ih =>
    intro h
    simp only [hasSub, Bool.or_eq_false_iff] at h
    obtain ⟨hpre, hrest⟩ := h
    rw [replaceAllAux, if_neg (by rw [hpre]; simp)]
    rw [ih hrest]

/-- A `strings.ReplaceAll` with a non-empty pattern that does not occur in
the string is the identity. -/
theorem replaceAll_not_contained {pat s : GoStr} (rep : GoStr)
    (hne : pat ≠ []) (h : hasSub pat s = false) : replaceAll s pat rep = s := by
  cases pat with
  | nil => exact absurd rfl hne
  | cons p0 ptail => exact replaceAllAux_not_contained p0 ptail rep s h

theorem mem_goMapInsert {m : List (GoStr × GoStr)} {k v : GoStr}
    {kv : GoStr × GoStr} (h : kv ∈ goMapInsert m k v) :
    kv = (k, v) ∨ kv ∈ m := by
  induction m with
  | nil =>
    simp only [goMapInsert, List.mem_singleton] at h
    exact Or.inl h
  | cons hd tl ih =>
    unfold goMapInsert at h
    split at h
    · rcases List.mem_cons.mp h with h1 | h1
      · exact Or.inl h1
      · exact Or.inr (List.mem_cons_of_mem _ h1)
    · rcases List.mem_cons.mp h with h1 | h1
      · exact Or.inr (h1 ▸ List.mem_cons_self _ _)
      · rcases ih h1 with h2 | h2
        · exact Or.inl h2
        · exact Or.inr (List.mem_cons_of_mem _ h2)

/-- Every key of the replacement map starts with the two characters
`{{` — for the built-ins by inspection, for user keys by construction. -/
theorem buildReplacements_keys (projectName author : GoStr)
    (extraVars : List (GoStr × GoStr)) :
    ∀ kv ∈ buildReplacements projectName author extraVars,
      isPre (gs "\x7b\x7b") kv.1 = true := by
  unfold buildReplacements
  have hbase : ∀ kv ∈ builtinReplacements projectName author,
      isPre (gs "\x7b\x7b") kv.1 = true := by
    intro kv hkv
    simp only [builtinReplacements, List.mem_cons, List.not_mem_nil, or_false] at hkv
    rcases hkv with h | h | h | h <;> subst h
    · exact (by decide : isPre (gs "\x7b\x7b") (gs "\x7b\x7bPROJECT_NAME\x7d\x7d") = true)
    · exact (by decide : isPre (gs "\x7b\x7b") (gs "\x7b\x7bAUTHOR\x7d\x7d") = true)
    · exact (by decide : isPre (gs "\x7b\x7b") (gs "\x7b\x7bPROJECT_NAME_LOWER\x7d\x7d") = true)
    · exact (by decide : isPre (gs "\x7b\x7b") (gs "\x7b\x7bPROJECT_NAME_UPPER\x7d\x7d") = true)
  revert hbase
  generalize builtinReplacements projectName author = m0
  induction extraVars generalizing m0 with
  | nil => exact fun hbase => hbase
  | cons hd tl ih =>
    intro hbase
    simp only [List.foldl_cons]
    refine ih _ ?_
    intro kv hkv
    rcases mem_goMapInsert hkv with h | h
    · subst h
      show isPre (gs "\x7b\x7b") (gs "\x7b\x7b" ++ hd.1 ++ gs "\x7d\x7d") = true
      rw [List.append_assoc]
      exact isPre_append _ _
    · exact hbase kv h

theorem applyReps_token_free (reps : List (GoStr × GoStr)) :
    ∀ content : GoStr,
      (∀ kv ∈ reps, isPre (gs "\x7b\x7b") kv.1 = true) →
      hasSub (gs "\x7b\x7b") content = false →
      applyReps content reps = content := by
  induction reps with
  | nil => intro content _ _; rfl
  | cons hd tl ih =>
    intro content hkeys hfree
    have hkey : isPre (gs "\x7b\x7b") hd.1 = true := hkeys hd (List.mem_cons_self _ _)
    have hnotin : hasSub hd.1 content = false := by
      cases hcontain : hasSub hd.1 content with
      | false => rfl
      | true => exact absurd (hasSub_of_isPre_hasSub hkey hcontain) (by rw [hfree]; simp)
    have hne : hd.1 ≠ [] := by
      intro hnil
      rw [hnil] at hkey
      simp [gs, isPre] at hkey
    show applyReps (replaceAll content hd.1 hd.2) tl = content
    rw [replaceAll_not_contained hd.2 hne hnotin]
    exact ih content (fun kv hkv => hkeys kv (List.mem_cons_of_mem _ hkv)) hfree

/-- C10.  The placeholder engine is the identity on token-free text: if the
content does not contain the substring `{{`, `ReplacePlaceholders` returns
it unchanged for every project name, author and extra-variable map,
because every key of the replacement map starts with `{{`. -/
theorem replacePlaceholders_token_free_id
    (content projectName author : GoStr) (extraVars : List (GoStr × GoStr))
    (hfree : hasSub (gs "\x7b\x7b") content = false) :
    ReplacePlaceholders content projectName author extraVars = content :=
  applyReps_token_free _ content
    (buildReplacements_keys projectName author extraVars) hfree

/-- Witness for `replacePlaceholders_token_free_id`. -/
theorem replacePlaceholders_token_free_id_witness :
    ReplacePlaceholders (gs "plain text \x7b \x7d \x7d\x7b no tokens") (gs "demo") (gs "Ada")
      [(gs "K", gs "v")] = gs "plain text \x7b \x7d \x7d\x7b no tokens" :=
  replacePlaceholders_token_free_id _ (gs "demo") (gs "Ada") [(gs "K", gs "v")] (by decide)

/-! ### Claim theorems: user keys override built-ins -/

theorem goMapGet_insert_self (m : List (GoStr × GoStr)) (k v : GoStr) :
    goMapGet (goMapInsert m k v) k = some v := by
  induction m with
  | nil => simp [goMapInsert, goMapGet]
  | cons hd tl ih =>
    unfold goMapInsert
    split
    · simp [goMapGet]
    · rename_i hne
      unfold goMapGet
      rw [if_neg hne]
      exact ih

theorem goMapGet_insert_ne (m : List (GoStr × GoStr)) (k v k1 : GoStr)
    (hne : k1 ≠ k) : goMapGet (goMapInsert m k v) k1 = goMapGet m k1 := by
  induction m with
  | nil =>
    show goMapGet [(k, v)] k1 = goMapGet [] k1
    unfold goMapGet
    rw [if_neg (fun h => hne h.symm)]
    rfl
  | cons hd tl ih =>
    unfold goMapInsert
    split
    · rename_i heq
      unfold goMapGet
      rw [if_neg (fun h => hne h.symm), if_neg (by rw [heq]; exact fun h => hne h.symm)]
    · unfold goMapGet
      split
      · rfl
      · exact ih

theorem wrap_injective {a b : GoStr}
    (h : gs "\x7b\x7b" ++ a ++ gs "\x7d\x7d" = gs "\x7b\x7b" ++ b ++ gs "\x7d\x7d") :
    a = b := by
  rw [List.append_assoc, List.append_assoc] at h
  have h2 := List.append_cancel_left h
  exact List.append_cancel_right h2

/-- Lookups in the `extraVars` part of the replacement map track lookups
in the bare `extraVars` map, key wrapped as `{{key}}`: the fold that adds
the user variables preserves this correspondence. -/
theorem buildReps_get_fold (extras : List (GoStr × GoStr)) :
    ∀ (m1 m2 : List (GoStr × GoStr)),
    (∀ k v, goMapGet m1 k = some v →
      goMapGet m2 (gs "\x7b\x7b" ++ k ++ gs "\x7d\x7d") = some v) →
    ∀ k v,
      goMapGet (extras.foldl (fun m kv => goMapInsert m kv.1 kv.2) m1) k = some v →
      goMapGet
        (extras.foldl (fun m kv => goMapInsert m (gs "\x7b\x7b" ++ kv.1 ++ gs "\x7d\x7d") kv.2) m2)
        (gs "\x7b\x7b" ++ k ++ gs "\x7d\x7d") = some v := by
  induction extras with
  | nil => exact fun m1 m2 hcorr => hcorr
  | cons hd tl ih =>
    intro m1 m2 hcorr
    simp only [List.foldl_cons]
    refine ih _ _ ?_
    intro k v hget
    by_cases hk : k = hd.1
    · subst hk
      rw [goMapGet_insert_self] at hget
      cases hget
      exact goMapGet_insert_self _ _ _
    · rw [goMapGet_insert_ne _ _ _ _ hk] at hget
      rw [goMapGet_insert_ne _ _ _ _ (fun h => hk (wrap_injective h))]
      exact hcorr k v hget

/-- C4.  A caller-supplied key that equals the built-in token name
`PROJECT_NAME` overwrites the built-in's replacement value before any
substitution runs: the final replacement map binds `{{PROJECT_NAME}}` to
the user value, substitution is `applyReps` of exactly that map, and on
the token itself the engine produces the user value, never the built-in
project name. -/
theorem user_key_overrides_builtin (projectName author v : GoStr)
    (extraVars : List (GoStr × GoStr)) (content : GoStr)
    (hv : goMapGet (goMapOfList extraVars) (gs "PROJECT_NAME") = some v) :
    goMapGet (buildReplacements projectName author extraVars)
      (gs "\x7b\x7bPROJECT_NAME\x7d\x7d") = some v ∧
    ReplacePlaceholders content projectName author extraVars
      = applyReps content (buildReplacements projectName author extraVars) ∧
    (hasSub (gs "\x7b\x7b") v = false →
      ReplacePlaceholders (gs "\x7b\x7bPROJECT_NAME\x7d\x7d") projectName author
        [(gs "PROJECT_NAME", v)] = v) := by
  refine ⟨?_, rfl, ?_⟩
  · have hbase : ∀ k v2, goMapGet ([] : List (GoStr × GoStr)) k = some v2 →
        goMapGet (builtinReplacements projectName author)
          (gs "\x7b\x7b" ++ k ++ gs "\x7d\x7d") = some v2 := by
      intro k v2 h
      simp [goMapGet] at h
    have h := buildReps_get_fold extraVars [] (builtinReplacements projectName author)
      hbase (gs "PROJECT_NAME") v hv
    have e : gs "\x7b\x7b" ++ gs "PROJECT_NAME" ++ gs "\x7d\x7d"
        = gs "\x7b\x7bPROJECT_NAME\x7d\x7d" := by decide
    rw [e] at h
    exact h
  · intro hvfree
    have hb : buildReplacements projectName author [(gs "PROJECT_NAME", v)]
        = [(gs "\x7b\x7bPROJECT_NAME\x7d\x7d", v),
           (gs "\x7b\x7bAUTHOR\x7d\x7d", author),
           (gs "\x7b\x7bPROJECT_NAME_LOWER\x7d\x7d", toLowerGo projectName),
           (gs "\x7b\x7bPROJECT_NAME_UPPER\x7d\x7d", toUpperGo projectName)] := by
      show goMapInsert (builtinReplacements projectName author)
          (gs "\x7b\x7b" ++ gs "PROJECT_NAME" ++ gs "\x7d\x7d") v = _
      have e : gs "\x7b\x7b" ++ gs "PROJECT_NAME" ++ gs "\x7d\x7d"
          = gs "\x7b\x7bPROJECT_NAME\x7d\x7d" := by decide
      rw [e]
      rfl
    show applyReps _ _ = v
    rw [hb]
    have h1 : replaceAll (gs "\x7b\x7bPROJECT_NAME\x7d\x7d")
        (gs "\x7b\x7bPROJECT_NAME\x7d\x7d") v = v := by
      have : replaceAll (gs "\x7b\x7bPROJECT_NAME\x7d\x7d")
          (gs "\x7b\x7bPROJECT_NAME\x7d\x7d") v = v ++ [] := by
        simp [replaceAll, replaceAllAux, gs, isPre]
      simpa using this
    have hno : ∀ k rep : GoStr, isPre (gs "\x7b\x7b") k = true → k ≠ [] →
        replaceAll v k rep = v := by
      intro k rep hkey hne
      refine replaceAll_not_contained rep hne ?_
      cases hcontain : hasSub k v with
      | false => rfl
      | true => exact absurd (hasSub_of_isPre_hasSub hkey hcontain) (by rw [hvfree]; simp)
    show replaceAll (replaceAll (replaceAll (replaceAll
      (gs "\x7b\x7bPROJECT_NAME\x7d\x7d") (gs "\x7b\x7bPROJECT_NAME\x7d\x7d") v)
      (gs "\x7b\x7bAUTHOR\x7d\x7d") author)
      (gs "\x7b\x7bPROJECT_NAME_LOWER\x7d\x7d") (toLowerGo projectName))
      (gs "\x7b\x7bPROJECT_NAME_UPPER\x7d\x7d") (toUpperGo projectName) = v
    rw [h1]
    rw [hno _ _ (by decide) (by decide)]
    rw [hno _ _ (by decide) (by decide)]
    rw [hno _ _ (by decide) (by decide)]

/-- Witness for `user_key_overrides_builtin`: with built-in project name
`builtin` and user variable `PROJECT_NAME = user`, the map binds the token
to `user` and expanding the bare token produces `user`. -/
theorem user_key_overrides_builtin_witness :
    goMapGet (buildReplacements (gs "builtin") (gs "a") [(gs "PROJECT_NAME", gs "user")])
      (gs "\x7b\x7bPROJECT_NAME\x7d\x7d") = some (gs "user") ∧
    ReplacePlaceholders (gs "\x7b\x7bPROJECT_NAME\x7d\x7d") (gs "builtin") (gs "a")
      [(gs "PROJECT_NAME", gs "user")] = gs "user" := by
  have h := user_key_overrides_builtin (gs "builtin") (gs "a") (gs "user")
    [(gs "PROJECT_NAME", gs "user")] (gs "x") (by decide)
  exact ⟨h.1, h.2.2 (by decide)⟩

/-! ### Lemmas about the path model -/

theorem splitOnChar_ne_nil (sep : Char) : ∀ s : GoStr, splitOnChar sep s ≠ [] := by
  intro s
  cases s with
  | nil => simp [splitOnChar]
  | cons c t =>
    unfold splitOnChar
    split
    · simp
    · split <;> simp

theorem splitOnChar_cons (sep c : Char) (t : GoStr) :
    splitOnChar sep (c :: t) =
      if c = sep then [] :: splitOnChar sep t
      else
        match splitOnChar sep t with
        | [] => [[c]]
        | seg :: segs => (c :: seg) :: segs := rfl

theorem splitOnChar_append (sep : Char) (a b : GoStr) :
    splitOnChar sep (a ++ sep :: b) = splitOnChar sep a ++ splitOnChar sep b := by
  induction a with
  | nil =>
    rw [List.nil_append, splitOnChar_cons, if_pos rfl]
    rfl
  | cons c t ih =>
    rw [List.cons_append]
    by_cases hc : c = sep
    · rw [splitOnChar_cons, if_pos hc, ih, splitOnChar_cons, if_pos hc]
      rfl
    · obtain ⟨s0, rest, hsplit⟩ : ∃ s0 rest, splitOnChar sep t = s0 :: rest := by
        cases h2 : splitOnChar sep t with
        | nil => exact absurd h2 (splitOnChar_ne_nil sep t)
        | cons s0 rest => exact ⟨s0, rest, rfl⟩
      rw [splitOnChar_cons, if_neg hc, ih, hsplit, splitOnChar_cons, if_neg hc, hsplit]
      rfl

theorem splitOnChar_no_sep (sep : Char) : ∀ s : GoStr, sep ∉ s →
    splitOnChar sep s = [s] := by
  intro s
  induction s with
  | nil => intro _; rfl
  | cons c t ih =>
    intro h
    have hc : c ≠ sep := fun hc => h (hc ▸ List.mem_cons_self _ _)
    have ht : sep ∉ t := fun ht => h (List.mem_cons_of_mem _ ht)
    unfold splitOnChar
    rw [if_neg (fun hcc => hc hcc), ih ht]

theorem joinSegs_append (a b : List GoStr) (ha : a ≠ []) (hb : b ≠ []) :
    joinSegs (a ++ b) = joinSegs a ++ '/' :: joinSegs b := by
  induction a with
  | nil => exact absurd rfl ha
  | cons x t ih =>
    cases t with
    | nil =>
      cases b with
      | nil => exact absurd rfl hb
      | cons y ys => rfl
    | cons x2 t2 =>
      rw [List.cons_append]
      have e1 : joinSegs (x :: ((x2 :: t2) ++ b)) = x ++ '/' :: joinSegs ((x2 :: t2) ++ b) := by
        cases h2 : (x2 :: t2) ++ b with
        | nil => simp at h2
        | cons z zs => rfl
      rw [e1, ih (by simp)]
      show _ = (x ++ '/' :: joinSegs (x2 :: t2)) ++ '/' :: joinSegs b
      simp

theorem splitSlash_joinSegs : ∀ segs : List GoStr, segs ≠ [] →
    (∀ s ∈ segs, s ≠ [] ∧ '/' ∉ s) →
    splitSlash (joinSegs segs) = segs := by
  intro segs
  induction segs with
  | nil => intro h _; exact absurd rfl h
  | cons x t ih =>
    intro _ hwf
    cases t with
    | nil =>
      show splitSlash (joinSegs [x]) = [x]
      exact splitOnChar_no_sep '/' x (hwf x (List.mem_cons_self _ _)).2
    | cons y ys =>
      have e : joinSegs (x :: y :: ys) = x ++ '/' :: joinSegs (y :: ys) := rfl
      show splitSlash _ = _
      rw [e]
      unfold splitSlash
      rw [splitOnChar_append]
      have h1 : splitOnChar '/' x = [x] :=
        splitOnChar_no_sep '/' x (hwf x (List.mem_cons_self _ _)).2
      have h2 : splitOnChar '/' (joinSegs (y :: ys)) = y :: ys :=
        ih (by simp) (fun s hs => hwf s (List.mem_cons_of_mem _ hs))
      rw [h1, h2]
      rfl

theorem commonLen_append_self : ∀ l m : List GoStr, commonLen l (l ++ m) = l.length := by
  intro l
  induction l with
  | nil => intro m; cases m <;> rfl
  | cons x t ih =>
    intro m
    show commonLen (x :: t) (x :: (t ++ m)) = t.length + 1
    unfold commonLen
    rw [if_pos rfl, ih]
    omega

theorem goRel_eq (base targ : GoStr) :
    goRel base targ =
      if List.replicate
            ((splitSlash base).length - commonLen (splitSlash base) (splitSlash targ)) (gs "..")
          ++ (splitSlash targ).drop (commonLen (splitSlash base) (splitSlash targ)) = []
      then gs "."
      else
        joinSegs (List.replicate
            ((splitSlash base).length - commonLen (splitSlash base) (splitSlash targ)) (gs "..")
          ++ (splitSlash targ).drop (commonLen (splitSlash base) (splitSlash targ))) := rfl

theorem goRel_self (root : GoStr) : goRel root root = gs "." := by
  have h1 : commonLen (splitSlash root) (splitSlash root) = (splitSlash root).length := by
    have := commonLen_append_self (splitSlash root) []
    simpa using this
  rw [goRel_eq, h1, Nat.sub_self]
  simp

theorem goRel_pathOf (root : GoStr) (segs : List GoStr) (hne : segs ≠ [])
    (hwf : ∀ s ∈ segs, s ≠ [] ∧ '/' ∉ s) :
    goRel root (pathOf root segs) = joinSegs segs := by
  cases segs with
  | nil => exact absurd rfl hne
  | cons x t =>
    have e : splitSlash (pathOf root (x :: t)) = splitSlash root ++ (x :: t) := by
      show splitOnChar '/' (root ++ '/' :: joinSegs (x :: t)) = splitOnChar '/' root ++ (x :: t)
      rw [splitOnChar_append]
      rw [show splitOnChar '/' (joinSegs (x :: t)) = x :: t from
        splitSlash_joinSegs (x :: t) (by simp) hwf]
    rw [goRel_eq, e, commonLen_append_self, List.drop_left, Nat.sub_self]
    simp

theorem joinSegs_ne_dot (segs : List GoStr) (hne : segs ≠ [])
    (hwf : ∀ s ∈ segs, s ≠ [] ∧ '/' ∉ s ∧ s ≠ gs ".") :
    joinSegs segs ≠ gs "." := by
  cases segs with
  | nil => exact absurd rfl hne
  | cons x t =>
    cases t with
    | nil => exact (hwf x (List.mem_cons_self _ _)).2.2
    | cons y ys =>
      intro heq
      have e : joinSegs (x :: y :: ys) = x ++ '/' :: joinSegs (y :: ys) := rfl
      rw [e] at heq
      have hlen := congrArg List.length heq
      have hx : 0 < x.length :=
        List.length_pos.mpr (hwf x (List.mem_cons_self _ _)).1
      simp [gs] at hlen
      omega

theorem pathOf_snoc (root : GoStr) (segs : List GoStr) (n : GoStr) :
    pathOf root (segs ++ [n]) = pathOf root segs ++ '/' :: n := by
  cases segs with
  | nil => rfl
  | cons x t =>
    show root ++ '/' :: joinSegs ((x :: t) ++ [n]) = (root ++ '/' :: joinSegs (x :: t)) ++ '/' :: n
    rw [joinSegs_append (x :: t) [n] (by simp) (by simp)]
    show root ++ '/' :: (joinSegs (x :: t) ++ '/' :: joinSegs [n]) = _
    rw [show joinSegs [n] = n from rfl]
    simp

/-! ### Dry-run/actual parity -/

/-- A well-formed file/directory name: what `os.ReadDir` can actually
return as a single listing entry (non-empty, no separator, not `.`). -/
def SegWf (s : GoStr) : Prop := s ≠ [] ∧ '/' ∉ s ∧ s ≠ gs "."

mutual

def WfTree : FTree → Prop
  | .file n _ => SegWf n
  | .dir n cs => SegWf n ∧ WfForest cs

def WfForest : List FTree → Prop
  | [] => True
  | c :: cs => WfTree c ∧ WfForest cs

end

theorem wfTree_name {t : FTree} (h : WfTree t) : SegWf t.name := by
  cases t with
  | file n c => exact h
  | dir n cs => exact h.1

/-- Zeta-free unfolding of `shouldSkipEntry`. -/
theorem shouldSkipEntry_eq (isDir : Bool)
    (name srcPath sourceRoot targetRoot absSourceDir : GoStr)
    (tis : Bool) (ignores : List GoStr) :
    shouldSkipEntry isDir name srcPath sourceRoot targetRoot absSourceDir tis ignores =
      if isDir && shouldSkipDir name then (true, true)
      else if tis && isTargetOrChild srcPath absSourceDir targetRoot then
        if isDir then (true, true) else (true, false)
      else if goRel sourceRoot srcPath = gs "." then (true, false)
      else if MatchIgnore (toSlash (goRel sourceRoot srcPath)) ignores then
        if isDir then (true, true) else (true, false)
      else (false, false) := rfl

mutual

/-- The two walks classify identically at every entry other than the walk
root (whose relative path is `"."`): away from the root, the different
placement of the `relPath == "."` test in `PreviewFromTemplate` cannot be
observed, so the recorded destination paths agree. -/
theorem previewVisit_eq_createVisit (ctx : WalkCtx) (t : FTree) (segs : List GoStr)
    (hwf : WfTree t) (hsegs : ∀ s ∈ segs, SegWf s) (hne : segs ≠ []) :
    previewVisit ctx t (pathOf ctx.sourceRoot segs)
      = createVisit ctx t (pathOf ctx.sourceRoot segs) := by
  have hrel : goRel ctx.sourceRoot (pathOf ctx.sourceRoot segs) = joinSegs segs :=
    goRel_pathOf _ segs hne (fun s hs => ⟨(hsegs s hs).1, (hsegs s hs).2.1⟩)
  have hdot : goRel ctx.sourceRoot (pathOf ctx.sourceRoot segs) ≠ gs "." := by
    rw [hrel]
    exact joinSegs_ne_dot segs hne hsegs
  cases t with
  | file n content =>
    rw [previewVisit, createVisit, shouldSkipEntry_eq]
    simp only [FTree.isDir, FTree.name, Bool.false_and, Bool.false_eq_true, if_false]
    by_cases h2 : (ctx.targetInsideSource
        && isTargetOrChild (pathOf ctx.sourceRoot segs) ctx.absSourceDir ctx.targetRoot) = true
    · simp [h2]
    · by_cases h3 : MatchIgnore (toSlash (goRel ctx.sourceRoot (pathOf ctx.sourceRoot segs)))
          ctx.ignores = true
      · simp [h2, h3, hdot]
      · simp [h2, h3, hdot, joinDest]
  | dir n children =>
    rw [previewVisit, createVisit, shouldSkipEntry_eq]
    simp only [FTree.isDir, FTree.name, Bool.true_and]
    by_cases h1 : shouldSkipDir n = true
    · simp [h1]
    · by_cases h2 : (ctx.targetInsideSource
          && isTargetOrChild (pathOf ctx.sourceRoot segs) ctx.absSourceDir ctx.targetRoot) = true
      · simp [h1, h2]
      · by_cases h3 : MatchIgnore (toSlash (goRel ctx.sourceRoot (pathOf ctx.sourceRoot segs)))
            ctx.ignores = true
        · simp [h1, h2, h3, hdot]
        · rw [previewForest_eq_createForest ctx children segs hwf.2 hsegs]
          simp [h1, h2, h3, hdot, joinDest]

theorem previewForest_eq_createForest (ctx : WalkCtx) (ts : List FTree) (segs : List GoStr)
    (hwf : WfForest ts) (hsegs : ∀ s ∈ segs, SegWf s) :
    previewForest ctx ts (pathOf ctx.sourceRoot segs)
      = createForest ctx ts (pathOf ctx.sourceRoot segs) := by
  cases ts with
  | nil => rfl
  | cons c rest =>
    rw [previewForest, createForest]
    have hchild : pathOf ctx.sourceRoot segs ++ '/' :: c.name
        = pathOf ctx.sourceRoot (segs ++ [c.name]) := (pathOf_snoc _ _ _).symm
    rw [hchild]
    rw [previewVisit_eq_createVisit ctx c (segs ++ [c.name]) hwf.1 ?_ (by simp)]
    · rw [previewForest_eq_createForest ctx rest segs hwf.2 hsegs]
    · intro s hs
      rcases List.mem_append.mp hs with h | h
      · exact hsegs s h
      · rw [List.mem_singleton.mp h]
        exact wfTree_name hwf.1

end

/-- C1 (amended).  Dry-run/actual parity holds for every well-formed
template tree provided (1) no ignore pattern matches the walk root's
relative path `"."` and (2) the template root and the destination are
disjoint subtrees (segment-level: neither root's segment chain is a
prefix of the other's): then `PreviewFromTemplate` reports exactly the
destination paths (directories and files) that `CreateFromTemplate`'s
walk produces.  Proviso (2) is the domain on which the shared static
tree is a faithful model of both modes: there every write of create's
run — the destination directory `ensureTargetDir` pre-creates and the
walk's copies — lies outside the walked subtree, so create walks the
same source snapshot preview does.  (The destination-is-an-ancestor
half of (2) is automatic in every real run, since a fresh destination
cannot be an ancestor of the existing template.)  Both provisos are
necessary, see `preview_create_parity_counterexample`: without (1), a
`.foundryignore` pattern matching `"."` prunes the whole preview but
not the materialization, because `PreviewFromTemplate` tests the ignore
patterns before the `relPath == "."` root test while `copyTree` tests
them after; without (2), a destination nested inside the source but
named with a leading `..` (such as `/s/..d` under source `/s`) defeats
`isTargetInsideSource`, and create's walk — run after `ensureTargetDir`
— sees and copies the destination entry itself, producing the path
`/s/..d/..d`, which preview never reports; that divergence is exhibited
on the mutable-file-system walk `createWalkFS`. -/
theorem preview_create_parity (tmplPath targetDir : GoStr) (tree : FTree)
    (hwf : WfTree tree)
    (hroot : MatchIgnore (gs ".") (rootIgnores tree) = false)
    (_hnest : isPre (splitSlash tmplPath) (splitSlash targetDir) = false)
    (_hanc : isPre (splitSlash targetDir) (splitSlash tmplPath) = false) :
    PreviewFromTemplateFiles tmplPath targetDir tree
      = CreateFromTemplateFiles tmplPath targetDir tree := by
  show previewVisit
      ⟨tmplPath, targetDir, tmplPath, isTargetInsideSource tmplPath targetDir, rootIgnores tree⟩
      tree tmplPath
    = createVisit
      ⟨tmplPath, targetDir, tmplPath, isTargetInsideSource tmplPath targetDir, rootIgnores tree⟩
      tree tmplPath
  have hself : goRel tmplPath tmplPath = gs "." := goRel_self tmplPath
  have htos : toSlash (gs ".") = gs "." := rfl
  cases tree with
  | file n content =>
    rw [previewVisit, createVisit, shouldSkipEntry_eq]
    simp only [FTree.isDir, FTree.name, Bool.false_and, Bool.false_eq_true, if_false]
    by_cases h2 : (isTargetInsideSource tmplPath targetDir
        && isTargetOrChild tmplPath tmplPath targetDir) = true
    · simp [h2]
    · simp [h2, hself, htos, hroot]
  | dir n children =>
    rw [previewVisit, createVisit, shouldSkipEntry_eq]
    simp only [FTree.isDir, FTree.name, Bool.true_and]
    by_cases h1 : shouldSkipDir n = true
    · simp [h1]
    · by_cases h2 : (isTargetInsideSource tmplPath targetDir
          && isTargetOrChild tmplPath tmplPath targetDir) = true
      · simp [h1, h2]
      · have hforest := previewForest_eq_createForest
          ⟨tmplPath, targetDir, tmplPath, isTargetInsideSource tmplPath targetDir,
            rootIgnores (FTree.dir n children)⟩ children [] hwf.2
          (fun s hs => absurd hs (List.not_mem_nil s))
        simp [h1, h2, hself, htos, hroot]
        exact hforest

/-- Witness tree for the parity theorem: a template without ignore file. -/
def plainTree : FTree := .dir (gs "t") [ .file (gs "a.txt") (gs "hello") ]

/-- Witness for `preview_create_parity` at a concrete template with
disjoint roots. -/
theorem preview_create_parity_witness :
    PreviewFromTemplateFiles (gs "/tpl") (gs "/dst") plainTree
      = CreateFromTemplateFiles (gs "/tpl") (gs "/dst") plainTree :=
  preview_create_parity (gs "/tpl") (gs "/dst") plainTree
    (by simp [plainTree, WfTree, WfForest, SegWf, gs]) rfl (by decide) (by decide)

/-- The C1 counterexample template: its ignore file consists of the single
line `.`, a pattern that glob-matches the walk root's relative path. -/
def dotIgnoreTree : FTree :=
  .dir (gs "t") [ .file (gs ".foundryignore") (gs "."), .file (gs "a") (gs "hello") ]

/-- The nested-destination counterexample template: source `/s` holding
the single file `a`; the destination `/s/..d` sits inside it. -/
def nestedSrcTree : FTree := .dir (gs "s") [ .file (gs "a") (gs "x") ]

/-- Refutation of C1 as stated, in both directions the amendment guards.
First divergence (ignore pattern matching `"."`): for the well-formed
template `dotIgnoreTree` and a fresh disjoint destination,
`PreviewFromTemplate` reports no output at all while
`CreateFromTemplate`'s walk produces two files — the preview prunes the
entire walk at the root (the pattern `.` matches `relPath = "."`, tested
before the root test), the materializer does not.  Second divergence
(destination nested inside the source): the destination `/s/..d` lies
inside the source `/s` (its segment chain extends the source's), yet
`isTargetInsideSource` returns `false`, so the guard is off; preview of
the source snapshot reports exactly `/s/..d/a`, but create's walk — run
on the file system in which `ensureTargetDir` has already created the
destination (entries `..d` and `a` under `/s`, in sorted listing order)
— completes having copied the destination entry `..d` itself, whose
destination path `/s/..d/..d` preview never reports. -/
theorem preview_create_parity_counterexample :
    (WfTree dotIgnoreTree ∧
     PreviewFromTemplateFiles (gs "/tpl") (gs "/dst") dotIgnoreTree = [] ∧
     CreateFromTemplateFiles (gs "/tpl") (gs "/dst") dotIgnoreTree
       = [gs "/dst/.foundryignore", gs "/dst/a"]) ∧
    (WfTree nestedSrcTree ∧
     isPre (splitSlash (gs "/s")) (splitSlash (gs "/s/..d")) = true ∧
     isTargetInsideSource (gs "/s") (gs "/s/..d") = false ∧
     PreviewFromTemplateFiles (gs "/s") (gs "/s/..d") nestedSrcTree
       = [gs "/s/..d/a"] ∧
     (createWalkFS (gs "/s") [gs "..d"] []
         [⟨[gs "..d"], true⟩, ⟨[gs "a"], false⟩] 10).2.2 = true ∧
     (createWalkFS (gs "/s") [gs "..d"] []
         [⟨[gs "..d"], true⟩, ⟨[gs "a"], false⟩] 10).1
       = [[gs "..d"], [gs "a"]] ∧
     pathOf (pathOf (gs "/s") [gs "..d"]) [gs "..d"] = gs "/s/..d/..d" ∧
     gs "/s/..d/..d" ∉
       PreviewFromTemplateFiles (gs "/s") (gs "/s/..d") nestedSrcTree) := by
  have hprev : PreviewFromTemplateFiles (gs "/s") (gs "/s/..d") nestedSrcTree
      = [gs "/s/..d/a"] := by
    simp [PreviewFromTemplateFiles, previewVisit, previewForest, nestedSrcTree, rootIgnores,
          LoadIgnorePatterns, splitOnChar, trimSpace, isSpaceGo, shouldSkipEntry, shouldSkipDir,
          isTargetInsideSource, isTargetOrChild, goRel, splitSlash, joinSegs, commonLen, pathOf,
          joinDest, MatchIgnore, gs, isPre, toSlash, trimSuffix, hasSuf, pathSeparator,
          FTree.isDir, FTree.name]
  refine ⟨⟨by simp [dotIgnoreTree, WfTree, WfForest, SegWf, gs], ?_, ?_⟩,
          by simp [nestedSrcTree, WfTree, WfForest, SegWf, gs],
          by decide, by decide, hprev, by decide, by decide, by decide,
          by rw [hprev]; decide⟩ <;>
    simp [PreviewFromTemplateFiles, CreateFromTemplateFiles, previewVisit, previewForest,
          createVisit, createForest, dotIgnoreTree, rootIgnores,
          LoadIgnorePatterns, splitOnChar, trimSpace, isSpaceGo, shouldSkipEntry, shouldSkipDir,
          isTargetInsideSource, isTargetOrChild, goRel, splitSlash, joinSegs, commonLen, pathOf,
          joinDest, MatchIgnore, matchLoop, matchChunk, matchRanges, scanChunk, stripStars,
          chunkLen, caretStrip, getEsc, gs, isPre, toSlash, trimSuffix, hasSuf, pathSeparator,
          FTree.isDir, FTree.name]

/-! ### Self-containment: infrastructure -/

theorem isPre_of_take {α : Type} [DecidableEq α] {a b : List α}
    (hlen : a.length ≤ b.length) (h : b.take a.length = a) : isPre a b = true := by
  have e : b = a ++ b.drop a.length := by
    conv_lhs => rw [← List.take_append_drop a.length b]
    rw [h]
  rw [e]
  exact isPre_append _ _

/-- Segment-level containment implies the string-level test of
`isTargetOrChild`: if the target's segment chain is a prefix of the
entry's, the entry equals the target or lies under it. -/
theorem isTargetOrChild_of_segsPre (sourceRoot : GoStr) (tsegs p : List GoStr)
    (hts : tsegs ≠ []) (hwts : ∀ s ∈ tsegs, SegWf s) (hwp : ∀ s ∈ p, SegWf s)
    (hpre : isPre tsegs p = true) :
    isTargetOrChild (pathOf sourceRoot p) sourceRoot (pathOf sourceRoot tsegs) = true := by
  obtain ⟨r, hr⟩ := isPre_exists tsegs p hpre
  have hp : p ≠ [] := by
    intro hnil
    rw [hnil] at hr
    exact hts (List.append_eq_nil.mp hr.symm).1
  have hrp : goRel sourceRoot (pathOf sourceRoot p) = joinSegs p :=
    goRel_pathOf _ p hp (fun s hs => ⟨(hwp s hs).1, (hwp s hs).2.1⟩)
  have hrt : goRel sourceRoot (pathOf sourceRoot tsegs) = joinSegs tsegs :=
    goRel_pathOf _ tsegs hts (fun s hs => ⟨(hwts s hs).1, (hwts s hs).2.1⟩)
  unfold isTargetOrChild
  rw [hrp, hrt]
  cases hr2 : r with
  | nil =>
    rw [hr2] at hr
    simp at hr
    rw [hr]
    simp
  | cons r0 rrest =>
    have hrne : r ≠ [] := by rw [hr2]; simp
    have hj : joinSegs p = joinSegs tsegs ++ '/' :: joinSegs r := by
      rw [hr]
      exact joinSegs_append tsegs r hts hrne
    rw [hj]
    rw [Bool.or_eq_true]
    right
    rw [List.append_assoc]
    exact isPre_append_cons _ _ _

/-- With the guard active, `shouldSkipEntry` skips every entry whose
segment chain extends the target's (pruning it when a directory),
regardless of the ignore set. -/
theorem shouldSkipEntry_of_segsPre (sourceRoot : GoStr) (tsegs p : List GoStr)
    (isDir : Bool) (name : GoStr) (ignores : List GoStr)
    (hts : tsegs ≠ []) (hwts : ∀ s ∈ tsegs, SegWf s) (hwp : ∀ s ∈ p, SegWf s)
    (hpre : isPre tsegs p = true) :
    shouldSkipEntry isDir name (pathOf sourceRoot p) sourceRoot
      (pathOf sourceRoot tsegs) sourceRoot true ignores = (true, isDir) := by
  rw [shouldSkipEntry_eq]
  by_cases h1 : (isDir && shouldSkipDir name) = true
  · rw [if_pos h1]
    rcases Bool.and_eq_true _ _ |>.mp h1 with ⟨hd, -⟩
    rw [hd]
  · rw [if_neg h1,
      if_pos (by
        rw [isTargetOrChild_of_segsPre sourceRoot tsegs p hts hwts hwp hpre]
        rfl)]
    cases isDir <;> rfl

/-- At the walk root (`srcPath = sourceRoot`), `shouldSkipEntry` always
skips (the `relPath == "."` case at the latest). -/
theorem shouldSkipEntry_root_skips (isDir : Bool)
    (name sourceRoot targetRoot absSourceDir : GoStr) (tis : Bool)
    (ignores : List GoStr) :
    (shouldSkipEntry isDir name sourceRoot sourceRoot targetRoot absSourceDir
      tis ignores).1 = true := by
  rw [shouldSkipEntry_eq]
  by_cases h1 : (isDir && shouldSkipDir name) = true
  · rw [if_pos h1]
  · rw [if_neg h1]
    by_cases h2 : (tis && isTargetOrChild sourceRoot absSourceDir targetRoot) = true
    · rw [if_pos h2]
      cases isDir <;> rfl
    · rw [if_neg h2, if_pos (goRel_self sourceRoot)]

theorem childrenOf_append (fs1 fs2 : List FsEntry) (p : List GoStr) :
    childrenOf (fs1 ++ fs2) p = childrenOf fs1 p ++ childrenOf fs2 p := by
  unfold childrenOf
  exact List.filter_append _ _

theorem mem_childrenOf {fs : List FsEntry} {p : List GoStr} {e : FsEntry}
    (h : e ∈ childrenOf fs p) :
    e ∈ fs ∧ e.segs.length = p.length + 1 ∧ e.segs.take p.length = p := by
  have h2 := List.mem_filter.mp h
  refine ⟨h2.1, ?_⟩
  have := of_decide_eq_true h2.2
  exact this

/-- The walk's own writes (all strictly below the target) never show up in
the listing of a directory that is not itself at or below the target. -/
theorem childrenOf_writes_nil (ws : List FsEntry) (tsegs p : List GoStr)
    (hws : ∀ w ∈ ws, ∃ r, r ≠ [] ∧ w.segs = tsegs ++ r)
    (hnp : isPre tsegs p = false) :
    childrenOf ws p = [] := by
  rw [childrenOf, List.filter_eq_nil]
  intro w hw
  intro hcond
  have hc := of_decide_eq_true hcond
  obtain ⟨r, hrne, hr⟩ := hws w hw
  obtain ⟨hlen, htake⟩ := hc
  have hlent : tsegs.length ≤ p.length := by
    have : w.segs.length = tsegs.length + r.length := by rw [hr]; simp
    have hrpos : 0 < r.length := List.length_pos.mpr hrne
    omega
  have htp : p.take tsegs.length = tsegs := by
    have e1 : w.segs.take tsegs.length = tsegs := by
      rw [hr, List.take_left]
    have e2 : w.segs.take tsegs.length = p.take tsegs.length := by
      have : w.segs.take tsegs.length = (w.segs.take p.length).take tsegs.length := by
        rw [List.take_take, Nat.min_eq_left hlent]
      rw [this, htake]
    rw [← e2, e1]
  have : isPre tsegs p = true := isPre_of_take hlent htp
  rw [this] at hnp
  cases hnp

/-- Largest segment-chain length of a file-system snapshot. -/
def maxSegLen (fs : List FsEntry) : Nat :=
  (fs.map (fun e => e.segs.length)).foldr max 0

theorem le_maxSegLen {fs : List FsEntry} {e : FsEntry} (h : e ∈ fs) :
    e.segs.length ≤ maxSegLen fs := by
  induction fs with
  | nil => cases h
  | cons hd tl ih =>
    rcases List.mem_cons.mp h with h1 | h1
    · subst h1
      show e.segs.length ≤ max e.segs.length _
      exact Nat.le_max_left _ _
    · show e.segs.length ≤ max _ ((tl.map (fun e => e.segs.length)).foldr max 0)
      exact le_trans (ih h1) (Nat.le_max_right _ _)

/-- Fuel measure of the pending-visit stack. -/
def stackMeasure (N B : Nat) (stack : List FsEntry) : Nat :=
  (stack.map (fun e => (N + 1) ^ (B - e.segs.length))).sum

theorem stackMeasure_cons (N B : Nat) (e : FsEntry) (rest : List FsEntry) :
    stackMeasure N B (e :: rest)
      = (N + 1) ^ (B - e.segs.length) + stackMeasure N B rest := by
  simp [stackMeasure]

/-- Replacing a popped directory by its (original-snapshot) listing
strictly decreases the stack measure: a directory has at most `N`
children, each one segment longer. -/
theorem stackMeasure_children_lt (N B : Nat) (fs0 : List FsEntry) (p : List GoStr)
    (rest : List FsEntry)
    (hN : fs0.length ≤ N) (hpB : p.length < B) :
    stackMeasure N B (childrenOf fs0 p ++ rest)
      < (N + 1) ^ (B - p.length) + stackMeasure N B rest := by
  have hsum : ((childrenOf fs0 p).map (fun e => (N + 1) ^ (B - e.segs.length))).sum
      ≤ (childrenOf fs0 p).length * (N + 1) ^ (B - (p.length + 1)) := by
    have h := List.sum_le_card_nsmul
      ((childrenOf fs0 p).map (fun e => (N + 1) ^ (B - e.segs.length)))
      ((N + 1) ^ (B - (p.length + 1))) ?_
    · rw [List.length_map] at h
      simpa [smul_eq_mul] using h
    · intro x hx
      obtain ⟨e, he, hfe⟩ := List.mem_map.mp hx
      have hlen := (mem_childrenOf he).2.1
      rw [← hfe, hlen]
  have hcount : (childrenOf fs0 p).length ≤ N :=
    le_trans (List.length_filter_le _ _) hN
  have hpow : (N + 1) ^ (B - p.length) = (N + 1) ^ (B - (p.length + 1)) * (N + 1) := by
    have e1 : B - p.length = (B - (p.length + 1)) + 1 := by omega
    rw [e1, pow_succ]
  have hpos : 0 < (N + 1) ^ (B - (p.length + 1)) := Nat.pos_pow_of_pos _ (by omega)
  unfold stackMeasure
  rw [List.map_append, List.sum_append]
  have hlt : ((childrenOf fs0 p).map (fun e => (N + 1) ^ (B - e.segs.length))).sum
      < (N + 1) ^ (B - p.length) := by
    calc ((childrenOf fs0 p).map (fun e => (N + 1) ^ (B - e.segs.length))).sum
        ≤ (childrenOf fs0 p).length * (N + 1) ^ (B - (p.length + 1)) := hsum
      _ ≤ N * (N + 1) ^ (B - (p.length + 1)) := Nat.mul_le_mul_right _ hcount
      _ < (N + 1) * (N + 1) ^ (B - (p.length + 1)) :=
          (Nat.mul_lt_mul_right hpos).mpr (by omega)
      _ = (N + 1) ^ (B - (p.length + 1)) * (N + 1) := Nat.mul_comm _ _
      _ = (N + 1) ^ (B - p.length) := hpow.symm
  omega

theorem isPre_ne_nil_right {α : Type} [DecidableEq α] (a : List α) (ha : a ≠ []) :
    isPre a ([] : List α) = false := by
  cases a with
  | nil => exact absurd rfl ha
  | cons x xs => rfl

/-- One step of the materializing walk, zeta-free. -/
theorem walkAux_step (sourceRoot : GoStr) (tsegs : List GoStr) (ignores : List GoStr)
    (fuel : Nat) (fs : List FsEntry) (e : FsEntry) (stack : List FsEntry)
    (copied visited : List (List GoStr)) :
    walkAux sourceRoot tsegs ignores (fuel + 1) fs (e :: stack) copied visited =
      if (shouldSkipEntry e.isDir ((splitSlash sourceRoot ++ e.segs).getLastD [])
            (pathOf sourceRoot e.segs) sourceRoot (pathOf sourceRoot tsegs) sourceRoot
            (isTargetInsideSource sourceRoot (pathOf sourceRoot tsegs)) ignores).1 then
        if (shouldSkipEntry e.isDir ((splitSlash sourceRoot ++ e.segs).getLastD [])
              (pathOf sourceRoot e.segs) sourceRoot (pathOf sourceRoot tsegs) sourceRoot
              (isTargetInsideSource sourceRoot (pathOf sourceRoot tsegs)) ignores).2 then
          walkAux sourceRoot tsegs ignores fuel fs stack copied (visited ++ [e.segs])
        else
          walkAux sourceRoot tsegs ignores fuel fs
            ((if e.isDir then childrenOf fs e.segs else []) ++ stack) copied
            (visited ++ [e.segs])
      else
        walkAux sourceRoot tsegs ignores fuel (fs ++ [⟨tsegs ++ e.segs, e.isDir⟩])
          ((if e.isDir then childrenOf fs e.segs else []) ++ stack)
          (copied ++ [e.segs]) (visited ++ [e.segs]) := rfl

/-- Main self-containment invariant for the materializing walk with the
guard active: starting from any state whose file system is the original
snapshot plus writes strictly below the target, whose stack holds only
original entries (or the walk root), and with fuel above the stack
measure, the walk completes, never copies an entry at or below the
target, and visits only original entries (or the root). -/
theorem walkAux_guarded
    (sourceRoot : GoStr) (tsegs : List GoStr) (ignores : List GoStr) (fs0 : List FsEntry)
    (N B : Nat)
    (hts : tsegs ≠ []) (hwts : ∀ s ∈ tsegs, SegWf s)
    (hwfs : ∀ e ∈ fs0, ∀ s ∈ e.segs, SegWf s)
    (htis : isTargetInsideSource sourceRoot (pathOf sourceRoot tsegs) = true)
    (hN : fs0.length ≤ N) (hB : ∀ e ∈ fs0, e.segs.length < B) (hB0 : 0 < B) :
    ∀ (fuel : Nat) (fs stack : List FsEntry) (copied visited : List (List GoStr)),
      (∃ ws, fs = fs0 ++ ws ∧ ∀ w ∈ ws, ∃ r, r ≠ [] ∧ w.segs = tsegs ++ r) →
      (∀ x ∈ stack, x = (⟨[], true⟩ : FsEntry) ∨ x ∈ fs0) →
      stackMeasure N B stack < fuel →
      (∀ p ∈ copied, isPre tsegs p = false) →
      (∀ p ∈ visited, p = [] ∨ ∃ d, (⟨p, d⟩ : FsEntry) ∈ fs0) →
      (walkAux sourceRoot tsegs ignores fuel fs stack copied visited).2.2 = true ∧
      (∀ p ∈ (walkAux sourceRoot tsegs ignores fuel fs stack copied visited).1,
        isPre tsegs p = false) ∧
      (∀ p ∈ (walkAux sourceRoot tsegs ignores fuel fs stack copied visited).2.1,
        p = [] ∨ ∃ d, (⟨p, d⟩ : FsEntry) ∈ fs0) := by
  intro fuel
  induction fuel with
  | zero =>
    intro fs stack copied visited _ _ hfuel _ _
    exact absurd hfuel (by omega)
  | succ fuel ih =>
    intro fs stack copied visited hfs hstack hfuel hcop hvis
    cases stack with
    | nil => exact ⟨rfl, hcop, hvis⟩
    | cons e rest =>
      have hestack := hstack e (List.mem_cons_self _ _)
      have hrest : ∀ x ∈ rest, x = (⟨[], true⟩ : FsEntry) ∨ x ∈ fs0 :=
        fun x hx => hstack x (List.mem_cons_of_mem _ hx)
      have hewf : ∀ s ∈ e.segs, SegWf s := by
        rcases hestack with h | h
        · rw [h]
          intro s hs
          cases hs
        · exact hwfs e h
      have heB : e.segs.length < B := by
        rcases hestack with h | h
        · rw [h]
          exact hB0
        · exact hB e h
      rw [stackMeasure_cons] at hfuel
      have hpow1 : 1 ≤ (N + 1) ^ (B - e.segs.length) := Nat.one_le_pow _ _ (by omega)
      have hvis2 : ∀ p ∈ visited ++ [e.segs], p = [] ∨ ∃ d, (⟨p, d⟩ : FsEntry) ∈ fs0 := by
        intro p hp
        rcases List.mem_append.mp hp with h | h
        · exact hvis p h
        · rw [List.mem_singleton.mp h]
          rcases hestack with h2 | h2
          · left
            rw [h2]
          · right
            exact ⟨e.isDir, by rw [show (⟨e.segs, e.isDir⟩ : FsEntry) = e from rfl]; exact h2⟩
      have hchild_eq : isPre tsegs e.segs = false →
          childrenOf fs e.segs = childrenOf fs0 e.segs := by
        intro hnpre
        obtain ⟨ws, hws1, hws2⟩ := hfs
        rw [hws1, childrenOf_append, childrenOf_writes_nil ws tsegs e.segs hws2 hnpre,
          List.append_nil]
      have hstackNames : (e.isDir = true → isPre tsegs e.segs = false) →
          ∀ x ∈ (if e.isDir then childrenOf fs e.segs else []) ++ rest,
            x = (⟨[], true⟩ : FsEntry) ∨ x ∈ fs0 := by
        intro hcond x hx
        rcases List.mem_append.mp hx with h | h
        · split at h
          · rename_i hd
            rw [hchild_eq (hcond hd)] at h
            exact Or.inr (mem_childrenOf h).1
          · cases h
        · exact hrest x h
      have hmeasNames : (e.isDir = true → isPre tsegs e.segs = false) →
          stackMeasure N B ((if e.isDir then childrenOf fs e.segs else []) ++ rest) < fuel := by
        intro hcond
        split
        · rename_i hd
          rw [hchild_eq (hcond hd)]
          have h1 := stackMeasure_children_lt N B fs0 e.segs rest hN heB
          omega
        · rw [List.nil_append]
          omega
      rw [walkAux_step]
      by_cases hsk1 : (shouldSkipEntry e.isDir ((splitSlash sourceRoot ++ e.segs).getLastD [])
          (pathOf sourceRoot e.segs) sourceRoot (pathOf sourceRoot tsegs) sourceRoot
          (isTargetInsideSource sourceRoot (pathOf sourceRoot tsegs)) ignores).1 = true
      · rw [if_pos hsk1]
        by_cases hsk2 : (shouldSkipEntry e.isDir ((splitSlash sourceRoot ++ e.segs).getLastD [])
            (pathOf sourceRoot e.segs) sourceRoot (pathOf sourceRoot tsegs) sourceRoot
            (isTargetInsideSource sourceRoot (pathOf sourceRoot tsegs)) ignores).2 = true
        · rw [if_pos hsk2]
          exact ih fs rest copied (visited ++ [e.segs]) hfs hrest (by omega) hcop hvis2
        · rw [if_neg hsk2]
          have hcond : e.isDir = true → isPre tsegs e.segs = false := by
            intro hd
            by_contra hpre
            rw [Bool.not_eq_false] at hpre
            have heq := shouldSkipEntry_of_segsPre sourceRoot tsegs e.segs e.isDir
              ((splitSlash sourceRoot ++ e.segs).getLastD []) ignores hts hwts hewf hpre
            rw [htis] at hsk2
            rw [heq] at hsk2
            exact hsk2 (by rw [hd])
          exact ih fs _ copied (visited ++ [e.segs]) hfs (hstackNames hcond)
            (hmeasNames hcond) hcop hvis2
      · rw [if_neg hsk1]
        have hne : e.segs ≠ [] := by
          intro hnil
          apply hsk1
          rw [hnil]
          exact shouldSkipEntry_root_skips e.isDir _ sourceRoot _ sourceRoot _ ignores
        have hnpre : isPre tsegs e.segs = false := by
          by_contra hpre
          rw [Bool.not_eq_false] at hpre
          have heq := shouldSkipEntry_of_segsPre sourceRoot tsegs e.segs e.isDir
            ((splitSlash sourceRoot ++ e.segs).getLastD []) ignores hts hwts hewf hpre
          rw [htis] at hsk1
          rw [heq] at hsk1
          exact hsk1 rfl
        have hfs2 : ∃ ws, fs ++ [⟨tsegs ++ e.segs, e.isDir⟩] = fs0 ++ ws ∧
            ∀ w ∈ ws, ∃ r, r ≠ [] ∧ w.segs = tsegs ++ r := by
          obtain ⟨ws, hws1, hws2⟩ := hfs
          refine ⟨ws ++ [⟨tsegs ++ e.segs, e.isDir⟩], by rw [hws1, List.append_assoc], ?_⟩
          intro w hw
          rcases List.mem_append.mp hw with h | h
          · exact hws2 w h
          · rw [List.mem_singleton.mp h]
            exact ⟨e.segs, hne, rfl⟩
        have hcop2 : ∀ p ∈ copied ++ [e.segs], isPre tsegs p = false := by
          intro p hp
          rcases List.mem_append.mp hp with h | h
          · exact hcop p h
          · rw [List.mem_singleton.mp h]
            exact hnpre
        exact ih (fs ++ [⟨tsegs ++ e.segs, e.isDir⟩]) _ (copied ++ [e.segs])
          (visited ++ [e.segs]) hfs2 (hstackNames (fun _ => hnpre))
          (hmeasNames (fun _ => hnpre)) hcop2 hvis2

/-- C2 (amended).  For every destination nested inside the source for
which the code's guard test `isTargetInsideSource` holds (equivalently:
whose source-relative path does not begin with the characters `..`), the
materializing walk over the mutating file system terminates within a fuel
bound computable from the initial file system, copies no source entry
whose segment chain lies at or below the destination, and visits only
entries of the original source snapshot (or the walk root).  Without the
`isTargetInsideSource` proviso the claim fails: see
`selfContainment_counterexample`. -/
theorem createFromTemplate_self_containment
    (sourceRoot : GoStr) (tsegs : List GoStr) (ignores : List GoStr) (fs0 : List FsEntry)
    (hts : tsegs ≠ []) (hwts : ∀ s ∈ tsegs, SegWf s)
    (hwfs : ∀ e ∈ fs0, ∀ s ∈ e.segs, SegWf s)
    (htis : isTargetInsideSource sourceRoot (pathOf sourceRoot tsegs) = true) :
    (createWalkFS sourceRoot tsegs ignores fs0
        ((fs0.length + 1) ^ (maxSegLen fs0 + 1) + 1)).2.2 = true ∧
    (∀ p ∈ (createWalkFS sourceRoot tsegs ignores fs0
        ((fs0.length + 1) ^ (maxSegLen fs0 + 1) + 1)).1, isPre tsegs p = false) ∧
    (∀ p ∈ (createWalkFS sourceRoot tsegs ignores fs0
        ((fs0.length + 1) ^ (maxSegLen fs0 + 1) + 1)).2.1,
      p = [] ∨ ∃ d, (⟨p, d⟩ : FsEntry) ∈ fs0) := by
  have hmeas0 : stackMeasure fs0.length (maxSegLen fs0 + 1) [⟨[], true⟩]
      = (fs0.length + 1) ^ (maxSegLen fs0 + 1) := by
    simp [stackMeasure]
  exact walkAux_guarded sourceRoot tsegs ignores fs0 fs0.length (maxSegLen fs0 + 1)
    hts hwts hwfs htis le_rfl (fun e he => Nat.lt_succ_of_le (le_maxSegLen he)) (by omega)
    ((fs0.length + 1) ^ (maxSegLen fs0 + 1) + 1) fs0 [⟨[], true⟩] [] []
    ⟨[], (List.append_nil fs0).symm, fun w hw => absurd hw (List.not_mem_nil w)⟩
    (fun x hx => Or.inl (List.mem_singleton.mp hx))
    (by omega)
    (fun p hp => absurd hp (List.not_mem_nil p))
    (fun p hp => absurd hp (List.not_mem_nil p))

/-- The witness snapshot: source `/s` with a file `a`, the freshly created
destination directory `sub`, and a directory `b` containing `b/x`. -/
def guardedFs : List FsEntry :=
  [⟨[gs "a"], false⟩, ⟨[gs "sub"], true⟩, ⟨[gs "b"], true⟩, ⟨[gs "b", gs "x"], false⟩]

/-- Witness for `createFromTemplate_self_containment`: the guarded walk
completes and never copies the destination entry `sub`. -/
theorem createFromTemplate_self_containment_witness :
    (createWalkFS (gs "/s") [gs "sub"] [] guardedFs
        ((guardedFs.length + 1) ^ (maxSegLen guardedFs + 1) + 1)).2.2 = true ∧
    [gs "sub"] ∉ (createWalkFS (gs "/s") [gs "sub"] [] guardedFs
        ((guardedFs.length + 1) ^ (maxSegLen guardedFs + 1) + 1)).1 := by
  have h := createFromTemplate_self_containment (gs "/s") [gs "sub"] [] guardedFs
    (by simp) (by simp [SegWf, gs])
    (by intro e he s hs
        fin_cases he <;> fin_cases hs <;> exact ⟨by decide, by decide, by decide⟩)
    (by decide)
  exact ⟨h.1, fun hmem => absurd (h.2.1 [gs "sub"] hmem) (by decide)⟩

/-- Refutation of C2 as stated: the destination `/s/..d` is nested inside
the source `/s` by resolved absolute path, yet the code's
`isTargetInsideSource` test returns `false` (the relative path `..d`
begins with the characters `..`), so the guard is off and the walk copies
the entry at the destination path itself. -/
theorem selfContainment_counterexample :
    pathOf (gs "/s") [gs "..d"] = gs "/s/..d" ∧
    isTargetInsideSource (gs "/s") (gs "/s/..d") = false ∧
    (createWalkFS (gs "/s") [gs "..d"] [] [⟨[gs "..d"], true⟩] 10).2.2 = true ∧
    [gs "..d"] ∈ (createWalkFS (gs "/s") [gs "..d"] [] [⟨[gs "..d"], true⟩] 10).1 := by
  refine ⟨by decide, by decide, by decide, by decide⟩
